import Mathlib

/-!
Verification of the contract-solver module of the bitburner repository
(the file exporting the registry of coding-contract solvers,
among them solveLZCompression, solveLZDecompression, solveSquareRoot,
solveTotalWaysToSum, solveProper2ColoringGraph, solveVigenereCipher,
solveMergeOverlappingIntervals, solveAlgorithmicStockTraderIV,
solveFindLargestPrimeFactor and solveMinimumPathSumInTriangle).

Modelling conventions for the shallow embedding of the JavaScript source:

* a JavaScript string is its list of UTF-16 code units (a list of naturals);
* a JavaScript number is an unbounded integer: every payload exercised by
  the claims is integer-valued and the integer arithmetic performed by the
  solvers is exact in doubles over the inputs the theorems quantify over;
* an array is a list; reading an out-of-range index yields an `Option`
  whose `none` plays the role of `undefined`;
* a thrown exception is `Except.error`; `new Array(len)` with a negative
  length and a failed `BigInt(...)` conversion are the places the module
  can throw, and they are modelled explicitly;
* a while loop that provably terminates is embedded by well-founded
  recursion on an explicit measure, or by structural recursion on a fuel
  argument that dominates such a measure (a theorem then shows the
  fuel-exhaustion branch is never taken); the one loop of the module that
  can diverge (the division-by-two loop of solveFindLargestPrimeFactor) is
  embedded with explicit fuel, `none` meaning that no amount of fuel makes
  the loop stop.
-/

/-- UTF-16 code units of a JavaScript string. -/
abbrev JSStr := List Nat

/-- The exception kinds the solver module can throw: a RangeError from
`new Array(negative)` or from the negative-input check of solveSquareRoot,
and a SyntaxError from a failed `BigInt(string)` conversion. -/
inductive JSErr where
  | rangeError
  | syntaxError
deriving DecidableEq

/-- Untyped JavaScript values, as far as the solver payloads need them. -/
inductive JSVal where
  | num : Int → JSVal
  | str : JSStr → JSVal
  | arr : List JSVal → JSVal

/-- The JavaScript idiom `x || 0` applied to a possibly-undefined number:
`undefined` and `0` both fall through to `0`, any other integer is kept. -/
def jsOrZero (o : Option Int) : Int :=
  o.getD 0

/-! ## Minimum Path Sum in a Triangle

The solver runs the textbook bottom-up DP, but it writes the partial sums
back into the row lists of the payload itself
(`triangle[row][col] = current + Math.min(left, right)`), so the payload
that the caller handed in is mutated.  The embedding therefore returns the
result together with the final state of the payload. -/

/-- Array read `triangle[r]?.[c]`. -/
def triGet (t : List (List Int)) (r c : Nat) : Option Int :=
  (t.get? r).bind fun row => row.get? c

/-- Array write `triangle[r][c] = x` (the solver only writes to positions
that exist, so an out-of-range write may keep the state unchanged). -/
def triSet (t : List (List Int)) (r c : Nat) (x : Int) : List (List Int) :=
  match t.get? r with
  | some row => t.set r (row.set c x)
  | none => t

/-- One step of the inner column loop: the body guarded by the three
`typeof ... === 'number'` checks (on integer row lists a position is a
number exactly when it is in range). -/
def triStep (row col : Nat) (t : List (List Int)) : List (List Int) :=
  match triGet t row col, triGet t (row + 1) col, triGet t (row + 1) (col + 1) with
  | some current, some left, some right => triSet t row col (current + min left right)
  | _, _, _ => t

/-- The inner loop `for (col = 0; col <= row; col++)`, written with the
remaining iteration count (`row + 1` at entry) as structural fuel. -/
def triColsGo (row : Nat) : Nat → Nat → List (List Int) → List (List Int)
  | 0, _, t => t
  | rem + 1, col, t => triColsGo row rem (col + 1) (triStep row col t)

/-- The inner column loop over `col = 0 .. row`. -/
def triCols (row : Nat) (t : List (List Int)) : List (List Int) :=
  triColsGo row (row + 1) 0 t

/-- The outer loop `for (row = n - 2; row >= 0; row--)`, structural in the
starting row index. -/
def triRows : Nat → List (List Int) → List (List Int)
  | 0, t => triCols 0 t
  | row + 1, t => triRows row (triCols (row + 1) t)

/-- solveMinimumPathSumInTriangle on an all-numeric triangle payload.
Returns the value the solver returns together with the payload as the
solver leaves it (the in-place DP mutates the triangle).  The leading
`!Array.isArray(data) || data.length === 0` guard and the `n === 0` and
`n === 1` early returns are the first three cases. -/
def solveMinimumPathSumInTriangle (t : List (List Int)) : Int × List (List Int) :=
  if t.length = 0 then (0, t)
  else if t.length = 1 then (jsOrZero (triGet t 0 0), t)
  else
    let t' := triRows (t.length - 2) t
    (jsOrZero (triGet t' 0 0), t')

/-! ## String and number conversions

The pieces of JavaScript semantics the solvers lean on: decimal printing
of integers, the whitespace/sign/radix grammar of `BigInt(string)`, and the
array-to-primitive conversion (`join(',')`) used when `BigInt` receives an
array. -/

/-- Decimal digits (most significant first) of a natural number, with the
remaining digit count as structural fuel; `decimalRepr` supplies enough. -/
def decDigitsGo : Nat → Nat → JSStr → JSStr
  | 0, _, acc => acc
  | fuel + 1, n, acc =>
      if n < 10 then (48 + n) :: acc
      else decDigitsGo fuel (n / 10) ((48 + n % 10) :: acc)

/-- The decimal string of a natural number (`BigInt.prototype.toString`). -/
def decimalRepr (n : Nat) : JSStr :=
  decDigitsGo (n + 1) n []

/-- The decimal string of an integer, minus sign included. -/
def intRepr (z : Int) : JSStr :=
  if z < 0 then 45 :: decimalRepr z.natAbs else decimalRepr z.toNat

/-- StrWhiteSpaceChar: the code units `BigInt(string)` strips from both
ends (ASCII whitespace, the Unicode space separators, NEL is not included,
and the BOM). -/
def jsWhitespace (c : Nat) : Bool :=
  c ∈ [9, 10, 11, 12, 13, 32, 160, 5760, 8192, 8193, 8194, 8195, 8196,
    8197, 8198, 8199, 8200, 8201, 8202, 8232, 8233, 8239, 8287, 12288, 65279]

/-- Strip leading and trailing whitespace. -/
def jsTrim (s : JSStr) : JSStr :=
  ((s.dropWhile jsWhitespace).reverse.dropWhile jsWhitespace).reverse

/-- Value of a decimal digit code unit. -/
def decDigit? (c : Nat) : Option Nat :=
  if 48 ≤ c ∧ c ≤ 57 then some (c - 48) else none

/-- Value of a binary digit code unit. -/
def binDigit? (c : Nat) : Option Nat :=
  if c = 48 ∨ c = 49 then some (c - 48) else none

/-- Value of an octal digit code unit. -/
def octDigit? (c : Nat) : Option Nat :=
  if 48 ≤ c ∧ c ≤ 55 then some (c - 48) else none

/-- Value of a hexadecimal digit code unit. -/
def hexDigit? (c : Nat) : Option Nat :=
  if 48 ≤ c ∧ c ≤ 57 then some (c - 48)
  else if 97 ≤ c ∧ c ≤ 102 then some (c - 87)
  else if 65 ≤ c ∧ c ≤ 70 then some (c - 55)
  else none

/-- Accumulating digit parser: `none` as soon as a unit is not a digit. -/
def parseDigitsGo (dig : Nat → Option Nat) (base : Nat) : Nat → JSStr → Option Nat
  | acc, [] => some acc
  | acc, c :: r =>
      match dig c with
      | some d => parseDigitsGo dig base (acc * base + d) r
      | none => none

/-- A nonempty all-digit string parsed in the given base. -/
def parseRadix (dig : Nat → Option Nat) (base : Nat) : JSStr → Option Nat
  | [] => none
  | c :: r => parseDigitsGo dig base 0 (c :: r)

/-- After a leading `0`, a radix marker selects the base of the remaining
digits; any other continuation reads the whole string as decimal. -/
def jsBigIntZeroTail : JSStr → Option Int
  | c2 :: r2 =>
      if c2 = 98 ∨ c2 = 66 then (parseRadix binDigit? 2 r2).map fun v => (v : Int)
      else if c2 = 111 ∨ c2 = 79 then (parseRadix octDigit? 8 r2).map fun v => (v : Int)
      else if c2 = 120 ∨ c2 = 88 then (parseRadix hexDigit? 16 r2).map fun v => (v : Int)
      else (parseRadix decDigit? 10 (48 :: c2 :: r2)).map fun v => (v : Int)
  | [] => (parseRadix decDigit? 10 [48]).map fun v => (v : Int)

/-- The trimmed StringToBigInt grammar: empty means zero; a sign is
followed by decimal digits; a leading `0` may start a radix prefix (no
sign allowed with a prefix); otherwise decimal digits. -/
def jsBigIntBody : JSStr → Option Int
  | [] => some 0
  | c :: r =>
      if c = 43 then (parseRadix decDigit? 10 r).map fun v => (v : Int)
      else if c = 45 then (parseRadix decDigit? 10 r).map fun v => -(v : Int)
      else if c = 48 then jsBigIntZeroTail r
      else (parseRadix decDigit? 10 (c :: r)).map fun v => (v : Int)

/-- StringToBigInt: trim, then parse with the sign/radix grammar;
everything that fits no production (decimal point, exponent, foreign
letters) fails, which `BigInt` surfaces as a SyntaxError. -/
def jsBigIntOfStr (s : JSStr) : Option Int :=
  jsBigIntBody (jsTrim s)

/-- Array-to-string conversion (`Array.prototype.toString`, i.e.
`join(',')` with elements displayed recursively); a number displays as its
decimal form, a string as itself. -/
def jsValDisplay : JSVal → JSStr
  | .num z => intRepr z
  | .str s => s
  | .arr l => List.intercalate [44] (l.attach.map fun m => jsValDisplay m.1)
decreasing_by
  have h := List.sizeOf_lt_of_mem m.2
  simp only [JSVal.arr.sizeOf_spec]; omega

/-- The `BigInt(n)` conversion at the top of solveSquareRoot: an
integer-valued number converts to itself, a string goes through
StringToBigInt, an array is first converted to its joined string. -/
def jsBigIntOfVal : JSVal → Option Int
  | .num z => some z
  | .str s => jsBigIntOfStr s
  | .arr l => jsBigIntOfStr (jsValDisplay (.arr l))

/-! ## Square Root -/

/-- The Newton–Raphson loop of solveSquareRoot:
`y = (x + n/x) >> 1n; if (y >= x) break; x = y`. -/
def newtonIter (n x : Nat) : Nat :=
  let y := (x + n / x) / 2
  if y < x then newtonIter n y else x
termination_by x
decreasing_by simpa using ‹_›

/-- The value computed by solveSquareRoot on a nonnegative integer: inputs
below 2 are returned as they are, otherwise the Newton iteration starts at
`2 ^ ceil(bitLength/2)` (the bit length of `n ≥ 1` is `Nat.size n`, the
length of its binary string) and the result is rounded to whichever of
`x`, `x+1` has its square nearer to `n`, ties going down. -/
def solveSquareRootVal (n : Nat) : Nat :=
  if n < 2 then n
  else
    let x := newtonIter n (2 ^ ((Nat.size n + 1) / 2))
    let d1 : Int := (n : Int) - (x : Int) * x
    let d2 : Int := ((x : Int) + 1) * ((x : Int) + 1) - n
    if d2 < d1 then x + 1 else x

/-- solveSquareRoot: convert the payload with `BigInt` (a SyntaxError when
the conversion fails), reject negative inputs with a RangeError, and
return the decimal string of the nearest integer square root. -/
def solveSquareRoot (v : JSVal) : Except JSErr JSStr :=
  match jsBigIntOfVal v with
  | none => .error .syntaxError
  | some z =>
      if z < 0 then .error .rangeError
      else .ok (decimalRepr (solveSquareRootVal z.toNat))

/-! ## Total Ways to Sum -/

/-- Inner loop `for (j = i; j <= data; j++) dp[j] = dp[j] + dp[j - i]`,
with the remaining iteration count as structural fuel (the `undefined`
guards always pass: `j` and `j - i` lie inside the array `0 .. data`). -/
def twsInnerGo (i : Nat) : Nat → Nat → (Nat → Int) → (Nat → Int)
  | 0, _, dp => dp
  | fuel + 1, j, dp => twsInnerGo i fuel (j + 1) (Function.update dp j (dp j + dp (j - i)))

/-- Outer loop `for (i = 1; i < data; i++)` of solveTotalWaysToSum. -/
def twsOuterGo (N : Nat) : Nat → Nat → (Nat → Int) → (Nat → Int)
  | 0, _, dp => dp
  | fuel + 1, i, dp => twsOuterGo N fuel (i + 1) (twsInnerGo i (N + 1 - i) i dp)

/-- solveTotalWaysToSum: non-numbers give the 0 sentinel;
`new Array(data + 1)` throws a RangeError when `data + 1` is negative; the
DP array is modelled as a function, `dp[0] = 1` included; the final
`dp[data] || 0` reads `undefined` (hence 0) when `data` is negative. -/
def solveTotalWaysToSum (v : JSVal) : Except JSErr JSVal :=
  match v with
  | .num d =>
      if d + 1 < 0 then .error .rangeError
      else
        let N := d.toNat
        let dp := twsOuterGo N (N - 1) 1 (Function.update (fun _ => 0) 0 1)
        .ok (.num (jsOrZero (if d < 0 then none else some (dp N))))
  | _ => .ok (.num 0)

/-! ## Find Largest Prime Factor

The two while loops and the trial-division for loop are embedded with
explicit fuel (one unit per loop iteration): a `none` result means the
iteration count exceeds every fuel, i.e. the loop never exits.  JavaScript
`%` and `/` on integers are `Int.tmod` and (on exact divisions) `Int.tdiv`;
the for-loop guard `i <= Math.sqrt(n)` holds exactly when `i * i ≤ n`
(for negative `n` the square root is NaN and the comparison is false, and
`i * i ≤ n` is false as well). -/

/-- Loop `while (n % 2 === 0) { largestPrime = 2; n = n / 2 }`. -/
def lpfEvenLoop : Nat → Int → Int → Option (Int × Int)
  | 0, _, _ => none
  | fuel + 1, n, largest =>
      if Int.tmod n 2 = 0 then lpfEvenLoop fuel (Int.tdiv n 2) 2
      else some (n, largest)

/-- Loop `while (n % i === 0) { largestPrime = i; n = n / i }`. -/
def lpfDivLoop (i : Int) : Nat → Int → Int → Option (Int × Int)
  | 0, _, _ => none
  | fuel + 1, n, largest =>
      if Int.tmod n i = 0 then lpfDivLoop i fuel (Int.tdiv n i) i
      else some (n, largest)

/-- Loop `for (i = 3; i <= Math.sqrt(n); i += 2)` with its inner division
loop. -/
def lpfOddLoop : Nat → Int → Int → Int → Option (Int × Int)
  | 0, _, _, _ => none
  | fuel + 1, i, n, largest =>
      if i * i ≤ n then
        match lpfDivLoop i (fuel + 1) n largest with
        | none => none
        | some (n', largest') => lpfOddLoop fuel (i + 2) n' largest'
      else some (n, largest)

/-- solveFindLargestPrimeFactor with fuel: a non-number returns the 0
sentinel, otherwise the division loops run and the final
`if (n > 2) largestPrime = n` picks the answer. -/
def solveFindLargestPrimeFactorFuel (fuel : Nat) (v : JSVal) : Option JSVal :=
  match v with
  | .num d =>
      match lpfEvenLoop fuel d 2 with
      | none => none
      | some (n, largest) =>
          match lpfOddLoop fuel 3 n largest with
          | none => none
          | some (n', largest') => some (.num (if n' > 2 then n' else largest'))
  | _ => some (.num 0)

/-! ## Vigenère Cipher -/

/-- The `toUpperCase` of a code unit, modelled on the ASCII range (the
theorems about the cipher quantify over ASCII strings only). -/
def upperChar (c : Nat) : Nat :=
  if 97 ≤ c ∧ c ≤ 122 then c - 32 else c

/-- String `toUpperCase`, on the ASCII range. -/
def jsToUpper (s : JSStr) : JSStr :=
  s.map upperChar

/-- One encrypted letter: `(plainCode + keyCode) % 26` in JavaScript
arithmetic (`charCodeAt - 65` may be negative for a non-letter key unit,
`%` follows the dividend's sign, and `String.fromCharCode` wraps to a
16-bit unit). -/
def vigEncChar (p k : Nat) : Nat :=
  let pc : Int := (p : Int) - 65
  let kc : Int := (k : Int) - 65
  ((Int.tmod (pc + kc) 26 + 65).emod 65536).toNat

/-- The encryption loop of solveVigenereCipher: letters A–Z consume one
keyword unit (cyclically) and are substituted, anything else passes
through; a missing keyword unit would break out of the loop. -/
def vigLoop (kw : JSStr) : JSStr → Nat → JSStr
  | [], _ => []
  | c :: r, ki =>
      if 65 ≤ c ∧ c ≤ 90 then
        match kw.get? (ki % kw.length) with
        | none => []
        | some k => vigEncChar c k :: vigLoop kw r (ki + 1)
      else c :: vigLoop kw r ki

/-- solveVigenereCipher: a payload that is not a pair of strings gives the
empty-string sentinel; both strings are uppercased; an empty keyword
returns the uppercased plaintext unchanged. -/
def solveVigenereCipher (v : JSVal) : JSStr :=
  match v with
  | .arr [.str plaintext, .str keyword] =>
      let up := jsToUpper plaintext
      let uk := jsToUpper keyword
      if uk.length = 0 then up else vigLoop uk up 0
  | _ => []

/-! ## Merge Overlapping Intervals -/

/-- The validation pass: keep exactly the items that are two-element
arrays of numbers. -/
def validIntervals : List JSVal → List (Int × Int)
  | [] => []
  | .arr [.num a, .num b] :: r => (a, b) :: validIntervals r
  | _ :: r => validIntervals r

/-- The sort comparator `(a, b) => a[0] !== b[0] ? a[0] - b[0] : a[1] - b[1]`
as the total preorder it induces.  The JavaScript sort is stable and the
comparator ties only on equal pairs, so every sort consistent with this
preorder produces the same list; the embedding uses insertion sort. -/
def intervalLE (a b : Int × Int) : Prop :=
  a.1 < b.1 ∨ (a.1 = b.1 ∧ a.2 ≤ b.2)

instance : DecidableRel intervalLE := fun _ _ =>
  inferInstanceAs (Decidable (_ ∨ _))

/-- The merge loop over the sorted tail, carrying `currentStart` and
`currentEnd`. -/
def mergeGo : List (Int × Int) → Int → Int → List (Int × Int)
  | [], cs, ce => [(cs, ce)]
  | (s, e) :: r, cs, ce =>
      if s ≤ ce then mergeGo r cs (max ce e)
      else (cs, ce) :: mergeGo r s e

/-- solveMergeOverlappingIntervals: empty or non-array payloads give the
empty sentinel, valid pairs are sorted by start then end, and overlapping
intervals are merged.  The returned array of two-element arrays is
modelled as a list of pairs. -/
def solveMergeOverlappingIntervals (v : JSVal) : List (Int × Int) :=
  match v with
  | .arr data =>
      if data.length = 0 then []
      else
        match List.insertionSort intervalLE (validIntervals data) with
        | [] => []
        | (s, e) :: rest => mergeGo rest s e
  | _ => []

/-- The claim's first invariant: starts strictly increasing. -/
def StartsStrictMono (l : List (Int × Int)) : Prop :=
  l.Chain' fun a b => a.1 < b.1

/-! ## Counting partitions (the specification side of Total Ways to Sum)

The claim speaks of unordered sums of positive integers, i.e. of
`Nat.Partition`.  `waysUpTo k n` is the standard recursive count of the
partitions of `n` with every part at most `k`: such a partition either
avoids the part `k` or drops one copy of it. -/

/-- Number of partitions of `n` into parts from `1 .. k`. -/
def waysUpTo : Nat → Nat → Nat
  | 0, n => if n = 0 then 1 else 0
  | k + 1, n =>
      waysUpTo k n + if _h : k + 1 ≤ n then waysUpTo (k + 1) (n - (k + 1)) else 0
termination_by k n => k + n
decreasing_by
  · omega
  · omega

/-- The partitions of `n` whose parts are all at most `k`. -/
def partsLE (k n : Nat) : Finset (Nat.Partition n) :=
  Finset.univ.filter fun p => ∀ i ∈ p.parts, i ≤ k

/-! ## Algorithmic Stock Trader IV

The solver's two branches: the unlimited-transactions shortcut (sum of the
positive consecutive deltas) and the buy/sell DP over two arrays of size
`k + 1`.  `-Infinity`, the initial content of `buy`, is `⊥` in
`WithBot Int`, whose `+` and `max` agree with the JavaScript arithmetic on
`-Infinity` (adding a finite number keeps `-Infinity`, and `Math.max`
discards it). -/

/-- The loop `for (i = 1; ...) if (prices[i] > prices[i-1]) profit += ...`,
carrying the previous price. -/
def stockShortcutGo (prev : Int) : List Int → Int
  | [] => 0
  | x :: r => (if prev < x then x - prev else 0) + stockShortcutGo x r

/-- The unlimited-transactions shortcut branch. -/
def stockShortcut : List Int → Int
  | [] => 0
  | p :: r => stockShortcutGo p r

/-- One pass of the inner loop `for (i = k; i >= 1; i--)` at price `p`,
on the pair (buy, sell).  The loop runs in descending index order and at
each index updates `sell[i]` from the old `buy[i]` before writing
`buy[i]` from `sell[i-1]` (not yet overwritten in this pass), so the whole
pass reads only pre-pass values and is a pointwise update. -/
def stockStep (k : Nat) (p : Int)
    (bs : (Nat → WithBot Int) × (Nat → WithBot Int)) :
    (Nat → WithBot Int) × (Nat → WithBot Int) :=
  (fun i => if 1 ≤ i ∧ i ≤ k then
      max (bs.1 i) (bs.2 (i - 1) + ((-p : Int) : WithBot Int)) else bs.1 i,
   fun i => if 1 ≤ i ∧ i ≤ k then
      max (bs.2 i) (bs.1 i + ((p : Int) : WithBot Int)) else bs.2 i)

/-- The outer loop `for (const price of prices)` of the DP branch. -/
def stockDPGo (k : Nat) : List Int →
    (Nat → WithBot Int) × (Nat → WithBot Int) →
    (Nat → WithBot Int) × (Nat → WithBot Int)
  | [], bs => bs
  | p :: r, bs => stockDPGo k r (stockStep k p bs)

/-- The DP branch of solveAlgorithmicStockTraderIV: `buy` filled with
`-Infinity`, `sell` filled with 0, one pass per price, answer `sell[k]`. -/
def stockDP (k : Nat) (prices : List Int) : WithBot Int :=
  (stockDPGo k prices (fun _ => ⊥, fun _ => ((0 : Int) : WithBot Int))).2 k

/-- The DP state after a processed prefix, recursing over the reversed
prefix (head = most recently processed price). -/
def stockMB (k : Nat) : List Int → (Nat → WithBot Int) × (Nat → WithBot Int)
  | [] => (fun _ => ⊥, fun _ => ((0 : Int) : WithBot Int))
  | p :: r => stockStep k p (stockMB k r)

/-- Sum of positive deltas of a reversed price prefix (head = latest
price). -/
def gainRev : List Int → Int
  | p :: q :: r => (if q < p then p - q else 0) + gainRev (q :: r)
  | _ => 0

/-- solveAlgorithmicStockTraderIV on a `[k, prices]` payload of numbers
(the two shape guards precede this).  Fewer than two prices give the 0
sentinel; `k ≥ floor(n/2)` takes the shortcut; other nonnegative `k` run
the DP; `k = -1` makes both DP arrays empty and the final read `sell[k]`
is `undefined` (`none` here); `k ≤ -2` throws from `new Array(k + 1)`. -/
def solveAlgorithmicStockTraderIV (k : Int) (prices : List Int) :
    Except JSErr (Option (WithBot Int)) :=
  if prices.length < 2 then .ok (some ((0 : Int) : WithBot Int))
  else if ((prices.length / 2 : Nat) : Int) ≤ k then
    .ok (some ((stockShortcut prices : Int) : WithBot Int))
  else if k + 1 < 0 then .error .rangeError
  else if k = -1 then .ok none
  else .ok (some (stockDP k.toNat prices))

/-! ## Proper 2-Coloring of a Graph

The solver builds an adjacency list from the valid edges, then colors the
vertices component by component with a breadth-first search, returning the
`[]` sentinel as soon as two adjacent vertices carry the same color.  The
BFS while-loop is embedded with a fuel argument; fuel `2 * n + 2`
dominates the loop measure (twice the number of uncolored vertices plus
the queue length), and the development proves that the fuel-exhaustion
branch is never taken, so the embedding agrees with the source's unbounded
loop. -/

/-- One edge `[u, v]` of the edge loop whose endpoints are both numbers:
if both lie in `[0, n)` then `graph[u]?.push(v)` runs, followed by
`graph[v]?.push(u)` on the updated state (so a self-loop appends its
vertex twice); otherwise the edge is skipped. -/
def addEdge (n : Nat) (g : Nat → List Nat) (u v : Int) : Nat → List Nat :=
  if 0 ≤ u ∧ u < (n : Int) ∧ 0 ≤ v ∧ v < (n : Int) then
    Function.update (Function.update g u.toNat (g u.toNat ++ [v.toNat])) v.toNat
      (Function.update g u.toNat (g u.toNat ++ [v.toNat]) v.toNat ++ [u.toNat])
  else g

/-- One iteration of the edge loop: only a two-element array of two
numbers contributes. -/
def edgeStep (n : Nat) (g : Nat → List Nat) : JSVal → (Nat → List Nat)
  | .arr [.num u, .num v] => addEdge n g u v
  | _ => g

/-- The edge loop over the payload's edge list. -/
def buildAdj (n : Nat) : List JSVal → (Nat → List Nat) → (Nat → List Nat)
  | [], g => g
  | e :: rest, g => buildAdj n rest (edgeStep n g e)

/-- The neighbor loop of one BFS step: an uncolored neighbor receives the
color opposite to the current vertex (`1 - (colors[current] || 0)`; the
`|| 0` is the identity on every integer it is applied to) and is appended
to the queue; a neighbor carrying the current vertex's color aborts the
whole solver (`none` here); any other neighbor is skipped. -/
def processNbrs (colors : Nat → Int) (queue : List Nat) (cur : Nat) :
    List Nat → Option ((Nat → Int) × List Nat)
  | [] => some (colors, queue)
  | nb :: rest =>
      if colors nb = -1 then
        processNbrs (Function.update colors nb (1 - colors cur)) (queue ++ [nb])
          cur rest
      else if colors nb = colors cur then none
      else processNbrs colors queue cur rest

/-- The BFS while-loop (`while (queue.length > 0)`), with fuel.  The outer
`none` means the fuel ran out, `some none` is the same-color conflict that
makes the solver return `[]`, and `some (some colors)` is normal loop
exit. -/
def bfsLoop (adj : Nat → List Nat) :
    Nat → List Nat → (Nat → Int) → Option (Option (Nat → Int))
  | 0, _, _ => none
  | _ + 1, [], colors => some (some colors)
  | fuel + 1, cur :: rest, colors =>
      match processNbrs colors rest cur (adj cur) with
      | none => some none
      | some res => bfsLoop adj fuel res.2 res.1

/-- The outer vertex loop (`for (let i = 0; i < numVertices; i++)`), with
`fuel = n - i` iterations still to go: a still-uncolored vertex is seeded
with color 0 and its component is colored by one BFS.  Each BFS receives
fuel `2 * n + 2`, which the development proves sufficient. -/
def colorOuter (n : Nat) (adj : Nat → List Nat) :
    Nat → Nat → (Nat → Int) → Option (Option (Nat → Int))
  | 0, _, colors => some (some colors)
  | fuel + 1, i, colors =>
      if colors i = -1 then
        match bfsLoop adj (2 * n + 2) [i] (Function.update colors i 0) with
        | none => none
        | some none => some none
        | some (some cs) => colorOuter n adj fuel (i + 1) cs
      else colorOuter n adj fuel (i + 1) colors

/-- solveProper2ColoringGraph.  A payload that is not a two-element array
of a number and an array gives the `[]` sentinel; a negative vertex count
throws the RangeError of `new Array(numVertices)` (the adjacency-building
loop before it has no observable effect); otherwise the graph is built and
colored, a same-color conflict gives `[]`, and success returns the colors
array.  The fuel-exhaustion branch is mapped to `[]` as well; the
development proves that branch is never taken. -/
def solveProper2ColoringGraph (data : JSVal) : Except JSErr (List Int) :=
  match data with
  | .arr [.num nv, .arr edges] =>
      if nv < 0 then .error .rangeError
      else
        match colorOuter nv.toNat (buildAdj nv.toNat edges fun _ => [])
            nv.toNat 0 (fun _ => -1) with
        | none => .ok []
        | some none => .ok []
        | some (some colors) => .ok ((List.range nv.toNat).map colors)
  | _ => .ok []

/-- The payload `[n, edges]` encoding a mathematical edge list. -/
def edgesPayload (n : Nat) (edges : List (Nat × Nat)) : JSVal :=
  .arr [.num (n : Int),
    .arr (edges.map fun e => .arr [.num (e.1 : Int), .num (e.2 : Int)])]

/-- The adjacency function the solver builds from such a payload. -/
def payloadAdj (n : Nat) (edges : List (Nat × Nat)) : Nat → List Nat :=
  buildAdj n (edges.map fun e => .arr [.num (e.1 : Int), .num (e.2 : Int)])
    (fun _ => [])

/-- The specification side of the claim: some assignment of two colors
makes the endpoints of every edge differ. -/
def TwoColorable (edges : List (Nat × Nat)) : Prop :=
  ∃ f : Nat → Bool, ∀ e ∈ edges, f e.1 ≠ f e.2

/-- Number of uncolored vertices; twice this plus the queue length is the
decreasing measure of the BFS loop. -/
def uncolored (n : Nat) (colors : Nat → Int) : Nat :=
  ((Finset.range n).filter fun v => colors v = -1).card

/-- Walks of a given length in an adjacency function; the recorded length
carries the parity argument of the bipartiteness proof. -/
inductive WalkPar (adj : Nat → List Nat) : Nat → Nat → Nat → Prop where
  | nil (u : Nat) : WalkPar adj u u 0
  | cons {u w v L : Nat} (h : w ∈ adj u) (hw : WalkPar adj w v L) :
      WalkPar adj u v (L + 1)

/-! ## LZ Compression and Decompression

solveLZCompression alternates direct-copy (type 1) and back-reference
(type 2) chunks.  In a type-1 position it scans chunk lengths 1..min(9,
remaining): a length that some offset in 1..min(i, 9) can reproduce stops
the scan, any other length becomes the current maximum; a positive
maximum emits a digit and that many literal characters, otherwise it
emits '0' and switches modes.  In a type-2 position it takes the longest
match (up to 9 characters) over offsets 1..min(i, 9), emitting its length
digit and offset digit, or '0' when even the first character matches
nowhere.  The while-loop is embedded with fuel `2 * length + 2`, which
dominates the loop measure (twice the unconsumed suffix plus an
alternation bit); the development proves the fuel-exhaustion branch is
never taken.  solveLZDecompression replays the chunks, reading one digit
(a non-digit parses to NaN, `none` here), copying literals when they fit,
and copying back-references character by character under the source-index
bounds check.  Both return '' on an empty payload. -/

/-- The greedy match scan shared by both compressor loops: starting from
`m` matched characters and `fuel = cap - m` allowed extensions, extend
while the next character exists and equals the character `off` places
back. -/
def matchLenGo (s : List Nat) (i off : Nat) : Nat → Nat → Nat
  | m, 0 => m
  | m, fuel + 1 =>
      if i + m < s.length ∧ s.getD (i + m) 0 = s.getD (i + m - off) 0 then
        matchLenGo s i off (m + 1) fuel
      else m

/-- `matchLength` of the source: the greedy match at offset `off`, capped
at `cap`. -/
def matchLen (s : List Nat) (i off cap : Nat) : Nat :=
  matchLenGo s i off 0 cap

/-- The inner offset loop of the type-1 length scan: some offset in
`1..min(i, 9)` reproduces a full `len`-character match. -/
def canReference (s : List Nat) (i len : Nat) : Bool :=
  (List.range (min i 9)).any fun o => len ≤ matchLen s i (o + 1) len

/-- The type-1 length scan (`for len = 1..min(9, remaining)`), with
`fuel` counting the remaining lengths: a referencable length stops the
scan at the previous maximum, any other length becomes the maximum. -/
def maxLenGo (s : List Nat) (i : Nat) : Nat → Nat → Nat → Nat
  | _, ml, 0 => ml
  | len, ml, fuel + 1 =>
      if canReference s i len then ml
      else maxLenGo s i (len + 1) len fuel

/-- `maxLength` of a type-1 position. -/
def maxLength (s : List Nat) (i : Nat) : Nat :=
  maxLenGo s i 1 0 (min 9 (s.length - i))

/-- The type-2 offset loop, with `fuel` counting the remaining offsets:
a strictly longer match (capped at 9) replaces the best length/offset
pair. -/
def bestGo (s : List Nat) (i : Nat) : Nat → Nat × Nat → Nat → Nat × Nat
  | _, best, 0 => best
  | off, best, fuel + 1 =>
      if best.1 < matchLen s i off 9 then
        bestGo s i (off + 1) (matchLen s i off 9, off) fuel
      else bestGo s i (off + 1) best fuel

/-- `(bestLength, bestOffset)` of a type-2 position. -/
def bestMatch (s : List Nat) (i : Nat) : Nat × Nat :=
  bestGo s i 1 (0, 0) (min i 9)

/-- The compression while-loop, with fuel.  A type-1 position with a
positive maximum emits the length digit and the literal characters; with
maximum 0 it emits '0'.  A type-2 position with a positive best length
emits the length and offset digits; with best length 0 it emits '0'.
Modes alternate after every chunk.  The JavaScript `result +=` string
accumulator is rendered by returning the concatenation of the emitted
chunks. -/
def compressLoop (s : List Nat) : Nat → Nat → Bool → JSStr
  | 0, _, _ => []
  | fuel + 1, i, ty1 =>
      if i < s.length then
        if ty1 then
          if 0 < maxLength s i then
            (48 + maxLength s i) ::
              ((s.drop i).take (maxLength s i) ++
                compressLoop s fuel (i + maxLength s i) false)
          else 48 :: compressLoop s fuel i false
        else
          if 0 < (bestMatch s i).1 then
            (48 + (bestMatch s i).1) :: (48 + (bestMatch s i).2) ::
              compressLoop s fuel (i + (bestMatch s i).1) true
          else 48 :: compressLoop s fuel i true
      else []

/-- solveLZCompression on a string payload. -/
def solveLZCompression (s : JSStr) : JSStr :=
  if s.length = 0 then [] else compressLoop s (2 * s.length + 2) 0 true

/-- `parseInt` of a single character: a digit's value, `none` for the NaN
of any other character. -/
def digitVal? (c : Nat) : Option Nat :=
  if 48 ≤ c ∧ c ≤ 57 then some (c - 48) else none

/-- The back-reference copy loop (`for j = 0..length-1`): each step reads
`result[result.length - offset]` if that index is in bounds (a NaN offset
never is) and appends it. -/
def copyRef (off : Option Nat) : Nat → JSStr → JSStr
  | 0, res => res
  | j + 1, res =>
      copyRef off j
        (match off with
         | none => res
         | some o =>
             if h : 0 < o ∧ o ≤ res.length then
               res ++ [res.get ⟨res.length - o, by omega⟩]
             else res)

/-- The decompression while-loop over the remaining input, with fuel (one
unit per iteration; every iteration consumes at least the length
character, so fuel equal to the input length always suffices and the
wrapper passes exactly that).  Each iteration reads one length character;
0 flips the mode, NaN skips (in a type-2 position it still consumes the
offset character), a type-1 length copies that many literals when they
fit, and a type-2 length runs the back-reference copy loop on the parsed
offset. -/
def decompLoop : Nat → List Nat → Bool → JSStr → JSStr
  | 0, _, _, res => res
  | _ + 1, [], _, res => res
  | fuel + 1, ch :: rest, ty1, res =>
      match digitVal? ch with
      | some 0 => decompLoop fuel rest (!ty1) res
      | none =>
          if ty1 then decompLoop fuel rest false res
          else
            match rest with
            | [] => res
            | _ :: rest2 => decompLoop fuel rest2 true res
      | some (len + 1) =>
          if ty1 then
            if len + 1 ≤ rest.length then
              decompLoop fuel (rest.drop (len + 1)) false
                (res ++ rest.take (len + 1))
            else decompLoop fuel rest false res
          else
            match rest with
            | [] => res
            | och :: rest2 =>
                decompLoop fuel rest2 true (copyRef (digitVal? och) (len + 1) res)

/-- solveLZDecompression on a string payload. -/
def solveLZDecompression (s : JSStr) : JSStr :=
  if s.length = 0 then [] else decompLoop s.length s true []

/-! ## Theorems -/

/-- C3: the claim says every registered solver returns identical results on
two calls with the same payload because no solver changes the payload it is
given.  The code violates this: solveMinimumPathSumInTriangle stores the DP
sums into the payload, so on the triangle [[1],[2,3]] the first call
returns 3 and leaves the payload as [[3],[2,3]], and the second call on
that same payload object returns 5. -/
theorem c3_minPathSum_mutates_payload :
    solveMinimumPathSumInTriangle [[1], [2, 3]] = (3, [[3], [2, 3]]) ∧
      solveMinimumPathSumInTriangle [[3], [2, 3]] = (5, [[5], [2, 3]]) := by
  constructor <;> rfl

/-- C2: the claim says malformed input never throws and the only raising
call is solveSquareRoot on a negative input.  The code violates both
halves: solveSquareRoot on the non-numeric, non-negative string "abc"
throws a SyntaxError from the `BigInt` conversion, and
solveTotalWaysToSum on the well-typed number -2 throws a RangeError from
`new Array(-1)` instead of returning its 0 sentinel. -/
theorem c2_solvers_throw_beyond_negative_sqrt :
    solveSquareRoot (JSVal.str [97, 98, 99]) = Except.error JSErr.syntaxError ∧
      solveTotalWaysToSum (JSVal.num (-2)) = Except.error JSErr.rangeError := by
  constructor <;> rfl

/-- C4: the claim says every solver terminates on every payload, naming
solveFindLargestPrimeFactor on 0 in particular.  The code disagrees: on
input 0 the loop `while (n % 2 === 0) n = n / 2` rewrites 0 to 0 forever,
so no amount of fuel makes the solver return. -/
theorem c4_primeFactor_diverges_on_zero :
    ∀ fuel : Nat, solveFindLargestPrimeFactorFuel fuel (JSVal.num 0) = none := by
  have h : ∀ f : Nat, lpfEvenLoop f 0 2 = none := by
    intro f
    induction f with
    | zero => rfl
    | succ f ih => simpa [lpfEvenLoop] using ih
  intro fuel
  simp [solveFindLargestPrimeFactorFuel, h]

/-- C8 counterexample: the claim says the Vigenère solver with an empty
keyword returns the plaintext unchanged; on the lowercase string "a"
(code unit 97) it returns "A" (code unit 65) instead. -/
theorem c8_vigenere_empty_keyword_not_identity :
    solveVigenereCipher (JSVal.arr [JSVal.str [97], JSVal.str []]) = [65] ∧
      ([65] : JSStr) ≠ [97] := by
  exact ⟨rfl, by decide⟩

/-- C8 amended: with an empty keyword the solver returns the uppercased
plaintext (the code returns `upperPlaintext`), so it is the identity
exactly on strings with no lowercase letter.  The quantification is over
ASCII strings, where the embedding of `toUpperCase` is faithful. -/
theorem c8_vigenere_empty_keyword_uppercases (s : JSStr) (_h : ∀ c ∈ s, c < 128) :
    solveVigenereCipher (JSVal.arr [JSVal.str s, JSVal.str []]) = jsToUpper s ∧
      (solveVigenereCipher (JSVal.arr [JSVal.str s, JSVal.str []]) = s ↔
        ∀ c ∈ s, ¬(97 ≤ c ∧ c ≤ 122)) := by
  refine ⟨rfl, ?_⟩
  show jsToUpper s = s ↔ _
  clear _h
  induction s with
  | nil => simp [jsToUpper]
  | cons c r ih =>
      have hc : upperChar c = c ↔ ¬(97 ≤ c ∧ c ≤ 122) := by
        unfold upperChar
        constructor
        · intro hcc hlow
          rw [if_pos hlow] at hcc
          omega
        · intro hlow
          rw [if_neg hlow]
      simp only [jsToUpper, List.map_cons, List.cons.injEq, List.mem_cons] at ih ⊢
      constructor
      · rintro ⟨h1, h2⟩ x hx
        rcases hx with rfl | hx
        · exact hc.mp h1
        · exact ih.mp h2 x hx
      · intro hall
        exact ⟨hc.mpr (hall c (Or.inl rfl)), ih.mpr fun x hx => hall x (Or.inr hx)⟩

/-- C8 witness: the amended theorem applied to the ASCII string "a.". -/
theorem c8_vigenere_witness :
    (∀ c ∈ ([97, 46] : JSStr), c < 128) ∧
      (solveVigenereCipher (JSVal.arr [JSVal.str [97, 46], JSVal.str []]) =
          jsToUpper [97, 46] ∧
        (solveVigenereCipher (JSVal.arr [JSVal.str [97, 46], JSVal.str []]) =
            [97, 46] ↔ ∀ c ∈ ([97, 46] : JSStr), ¬(97 ≤ c ∧ c ≤ 122))) :=
  ⟨by decide, c8_vigenere_empty_keyword_uppercases [97, 46] (by decide)⟩

/-- C10 counterexample: the claim says the returned list is strictly
increasing in interval start for every payload.  On the payload
[[5,1],[5,2]] (an interval whose end precedes its start) the solver
returns [[5,1],[5,2]], whose two starts are equal. -/
theorem c10_merge_not_strictly_sorted :
    solveMergeOverlappingIntervals
        (JSVal.arr [JSVal.arr [JSVal.num 5, JSVal.num 1],
          JSVal.arr [JSVal.num 5, JSVal.num 2]]) = [(5, 1), (5, 2)] ∧
      ¬ StartsStrictMono [(5, 1), (5, 2)] := by
  constructor
  · rfl
  · intro hmono
    simp [StartsStrictMono] at hmono

instance : IsTotal (Int × Int) intervalLE :=
  ⟨by
    rintro ⟨a1, a2⟩ ⟨b1, b2⟩
    unfold intervalLE
    simp only []
    omega⟩

instance : IsTrans (Int × Int) intervalLE :=
  ⟨by
    rintro ⟨a1, a2⟩ ⟨b1, b2⟩ ⟨c1, c2⟩
    unfold intervalLE
    simp only []
    omega⟩

/-- The merge loop keeps `currentStart` as the start of its first output,
and on a start-sorted tail whose starts dominate `currentStart` it
produces a list in which consecutive intervals have nondecreasing starts
and each start strictly exceeds the previous end. -/
theorem mergeGo_chain :
    ∀ (rest : List (Int × Int)) (cs ce : Int),
      rest.Pairwise (fun a b => a.1 ≤ b.1) → (∀ p ∈ rest, cs ≤ p.1) →
      (∃ e t, mergeGo rest cs ce = (cs, e) :: t) ∧
        (mergeGo rest cs ce).Chain' fun a b => a.1 ≤ b.1 ∧ a.2 < b.1 := by
  intro rest
  induction rest with
  | nil =>
      intro cs ce _ _
      exact ⟨⟨ce, [], rfl⟩, List.chain'_singleton _⟩
  | cons p r ih =>
      obtain ⟨s, e⟩ := p
      intro cs ce hsorted hge
      have hcs : cs ≤ s := hge (s, e) (List.mem_cons_self _ _)
      have hr : r.Pairwise (fun a b => a.1 ≤ b.1) := hsorted.of_cons
      have hsr : ∀ q ∈ r, s ≤ q.1 := fun q hq => (List.pairwise_cons.mp hsorted).1 q hq
      unfold mergeGo
      by_cases hle : s ≤ ce
      · rw [if_pos hle]
        exact ih cs (max ce e) hr fun q hq => le_trans hcs (hsr q hq)
      · rw [if_neg hle]
        obtain ⟨⟨e', t, heq⟩, hchain⟩ := ih s e hr hsr
        refine ⟨⟨ce, mergeGo r s e, rfl⟩, ?_⟩
        rw [heq]
        rw [List.chain'_cons]
        refine ⟨⟨hcs, by omega⟩, ?_⟩
        rw [← heq]
        exact hchain

/-- C10 amended: for every payload, consecutive intervals returned by
solveMergeOverlappingIntervals have nondecreasing starts and each start is
strictly greater than the preceding interval's end.  (Strictly increasing
starts, as the claim stated it, fails when a kept interval has its end
before its start; see the counterexample.) -/
theorem c10_merge_output_chain (v : JSVal) :
    (solveMergeOverlappingIntervals v).Chain' fun a b => a.1 ≤ b.1 ∧ a.2 < b.1 := by
  cases v with
  | num z => exact List.chain'_nil
  | str s => exact List.chain'_nil
  | arr data =>
      show List.Chain' _
        (if data.length = 0 then []
          else
            match List.insertionSort intervalLE (validIntervals data) with
            | [] => []
            | (s, e) :: rest => mergeGo rest s e)
      by_cases hlen : data.length = 0
      · rw [if_pos hlen]
        exact List.chain'_nil
      · rw [if_neg hlen]
        have hs : List.Sorted intervalLE (List.insertionSort intervalLE (validIntervals data)) :=
          List.sorted_insertionSort intervalLE (validIntervals data)
        cases hsort : List.insertionSort intervalLE (validIntervals data) with
        | nil => exact List.chain'_nil
        | cons p rest =>
            obtain ⟨s, e⟩ := p
            rw [hsort] at hs
            have hs' : ((s, e) :: rest).Pairwise (fun a b => a.1 ≤ b.1) := by
              refine List.Pairwise.imp ?_ hs
              intro a b hab
              rcases hab with h1 | ⟨h1, _⟩
              · exact le_of_lt h1
              · exact le_of_eq h1
            have hp : rest.Pairwise (fun a b => a.1 ≤ b.1) :=
              (List.pairwise_cons.mp hs').2
            have hge : ∀ q ∈ rest, s ≤ q.1 := fun q hq =>
              (List.pairwise_cons.mp hs').1 q hq
            exact (mergeGo_chain rest s e hp hge).2

theorem waysUpTo_zero_right : ∀ k, waysUpTo k 0 = 1 := by
  intro k
  induction k with
  | zero => simp [waysUpTo]
  | succ k ih => rw [waysUpTo, dif_neg (by omega)]; omega

theorem waysUpTo_succ_of_lt {k n : Nat} (h : n < k + 1) :
    waysUpTo (k + 1) n = waysUpTo k n := by
  rw [waysUpTo, dif_neg (by omega)]
  omega

theorem waysUpTo_succ_of_le {k n : Nat} (h : k + 1 ≤ n) :
    waysUpTo (k + 1) n = waysUpTo k n + waysUpTo (k + 1) (n - (k + 1)) := by
  rw [waysUpTo, dif_pos h]

theorem partsLE_zero_card (n : Nat) : (partsLE 0 n).card = if n = 0 then 1 else 0 := by
  rcases n with _ | m
  · rw [if_pos rfl]
    have huniv : partsLE 0 0 = Finset.univ := by
      apply Finset.eq_univ_iff_forall.mpr
      intro p
      rw [partsLE, Finset.mem_filter]
      refine ⟨Finset.mem_univ _, fun i hi => ?_⟩
      rw [Nat.Partition.partition_zero_parts] at hi
      simp at hi
    rw [huniv, Finset.card_univ]
    exact Fintype.card_unique
  · rw [if_neg (by omega), Finset.card_eq_zero]
    apply Finset.eq_empty_iff_forall_not_mem.mpr
    intro p hp
    rw [partsLE, Finset.mem_filter] at hp
    have hzero : p.parts = 0 := by
      apply Multiset.eq_zero_of_forall_not_mem
      intro i hi
      have h1 := p.parts_pos hi
      have h2 := hp.2 i hi
      omega
    have hsum := p.parts_sum
    rw [hzero] at hsum
    simp at hsum

theorem partsLE_succ_card (k n : Nat) :
    (partsLE (k + 1) n).card =
      (partsLE k n).card +
        if k + 1 ≤ n then (partsLE (k + 1) (n - (k + 1))).card else 0 := by
  have hsplit :
      ((partsLE (k + 1) n).filter fun p => (k + 1) ∈ p.parts).card +
        ((partsLE (k + 1) n).filter fun p => ¬(k + 1) ∈ p.parts).card =
        (partsLE (k + 1) n).card :=
    Finset.filter_card_add_filter_neg_card_eq_card _
  have hnot : ((partsLE (k + 1) n).filter fun p => ¬(k + 1) ∈ p.parts) = partsLE k n := by
    ext p
    simp only [partsLE, Finset.mem_filter, Finset.mem_univ, true_and]
    constructor
    · rintro ⟨hle, hnm⟩ i hi
      have h1 := hle i hi
      have h2 : i ≠ k + 1 := fun he => hnm (he ▸ hi)
      omega
    · intro hle
      refine ⟨fun i hi => le_trans (hle i hi) (by omega), fun hmem => ?_⟩
      have := hle _ hmem
      omega
  have hhas : ((partsLE (k + 1) n).filter fun p => (k + 1) ∈ p.parts).card =
      if k + 1 ≤ n then (partsLE (k + 1) (n - (k + 1))).card else 0 := by
    by_cases h : k + 1 ≤ n
    · rw [if_pos h]
      refine Finset.card_bij
        (fun p hp =>
          ⟨p.parts.erase (k + 1),
            fun hi => p.parts_pos (Multiset.mem_of_mem_erase hi),
            ?_⟩)
        ?_ ?_ ?_
      · rw [Finset.mem_filter] at hp
        have hcons := Multiset.cons_erase hp.2
        have hsum := p.parts_sum
        rw [← hcons, Multiset.sum_cons] at hsum
        omega
      · intro p hp
        rw [Finset.mem_filter] at hp
        rw [partsLE, Finset.mem_filter] at hp ⊢
        exact ⟨Finset.mem_univ _,
          fun i hi => hp.1.2 i (Multiset.mem_of_mem_erase hi)⟩
      · intro p1 h1 p2 h2 heq
        rw [Finset.mem_filter] at h1 h2
        have herase := congrArg Nat.Partition.parts heq
        simp only at herase
        apply Nat.Partition.ext
        rw [← Multiset.cons_erase h1.2, ← Multiset.cons_erase h2.2, herase]
      · intro q hq
        rw [partsLE, Finset.mem_filter] at hq
        have hpos : ∀ {i}, i ∈ (k + 1) ::ₘ q.parts → 0 < i := by
          intro i hi
          rcases Multiset.mem_cons.mp hi with rfl | hi
          · omega
          · exact q.parts_pos hi
        have hsum : ((k + 1) ::ₘ q.parts).sum = n := by
          rw [Multiset.sum_cons, q.parts_sum]
          omega
        refine ⟨⟨(k + 1) ::ₘ q.parts, hpos, hsum⟩, ?_, ?_⟩
        · rw [Finset.mem_filter]
          constructor
          · rw [partsLE, Finset.mem_filter]
            refine ⟨Finset.mem_univ _, fun i hi => ?_⟩
            rcases Multiset.mem_cons.mp hi with rfl | hi
            · omega
            · exact hq.2 i hi
          · exact Multiset.mem_cons_self _ _
        · apply Nat.Partition.ext
          simp only
          exact Multiset.erase_cons_head _ _
    · rw [if_neg h, Finset.card_eq_zero]
      apply Finset.eq_empty_iff_forall_not_mem.mpr
      intro p hp
      rw [Finset.mem_filter] at hp
      have hle : k + 1 ≤ p.parts.sum := Multiset.le_sum_of_mem hp.2
      rw [p.parts_sum] at hle
      omega
  rw [hnot, hhas] at hsplit
  omega

theorem card_partsLE : ∀ k n, (partsLE k n).card = waysUpTo k n := by
  intro k
  induction k with
  | zero =>
      intro n
      rw [partsLE_zero_card]
      simp [waysUpTo]
  | succ k ihk =>
      intro n
      induction n using Nat.strong_induction_on with
      | _ n ihn =>
          rw [partsLE_succ_card, ihk n]
          by_cases h : k + 1 ≤ n
          · rw [if_pos h, ihn _ (by omega), waysUpTo_succ_of_le h]
          · rw [if_neg h, waysUpTo_succ_of_lt (by omega)]
            omega

/-- The inner coin-DP pass for part size `k + 1` over the array `0 .. M`:
positions before the loop index already hold the counts that use parts up
to `k + 1`, positions from the index up to `M` still hold the counts for
parts up to `k`, and the pass moves the boundary by one per fuel unit. -/
theorem twsInnerGo_spec (k M : Nat) :
    ∀ (fuel j : Nat) (dp : Nat → Int),
      k + 1 ≤ j → j + fuel ≤ M + 1 →
      (∀ x, x < j → dp x = (waysUpTo (k + 1) x : Int)) →
      (∀ x, j ≤ x → x ≤ M → dp x = (waysUpTo k x : Int)) →
      (∀ x, x < j + fuel → twsInnerGo (k + 1) fuel j dp x = (waysUpTo (k + 1) x : Int)) ∧
        (∀ x, j + fuel ≤ x → x ≤ M →
          twsInnerGo (k + 1) fuel j dp x = (waysUpTo k x : Int)) := by
  intro fuel
  induction fuel with
  | zero =>
      intro j dp _ _ hlt hge
      exact ⟨fun x hx => hlt x (by omega), fun x hx hxM => hge x (by omega) hxM⟩
  | succ fuel ih =>
      intro j dp hj hjM hlt hge
      have hstep : twsInnerGo (k + 1) (fuel + 1) j dp =
          twsInnerGo (k + 1) fuel (j + 1)
            (Function.update dp j (dp j + dp (j - (k + 1)))) := rfl
      set dp1 := Function.update dp j (dp j + dp (j - (k + 1))) with hdp1
      have hj1 : dp1 j = (waysUpTo (k + 1) j : Int) := by
        rw [hdp1, Function.update_same]
        have h1 : dp j = (waysUpTo k j : Int) := hge j (le_refl j) (by omega)
        have h2 : dp (j - (k + 1)) = (waysUpTo (k + 1) (j - (k + 1)) : Int) :=
          hlt _ (by omega)
        rw [h1, h2, waysUpTo_succ_of_le hj]
        push_cast
        ring
      have hlt1 : ∀ x, x < j + 1 → dp1 x = (waysUpTo (k + 1) x : Int) := by
        intro x hx
        by_cases hxj : x = j
        · subst hxj; exact hj1
        · rw [hdp1, Function.update_noteq hxj]
          exact hlt x (by omega)
      have hge1 : ∀ x, j + 1 ≤ x → x ≤ M → dp1 x = (waysUpTo k x : Int) := by
        intro x hx hxM
        rw [hdp1, Function.update_noteq (by omega)]
        exact hge x (by omega) hxM
      have hrec := ih (j + 1) dp1 (by omega) (by omega) hlt1 hge1
      rw [hstep]
      exact ⟨fun x hx => hrec.1 x (by omega), fun x hx hxM => hrec.2 x (by omega) hxM⟩

/-- The outer loop of solveTotalWaysToSum: starting at part size `i` with
the counts for parts up to `i - 1` on `0 .. N`, the remaining `N - i`
iterations leave the counts for parts up to `N - 1` on `0 .. N`. -/
theorem twsOuterGo_spec (N : Nat) :
    ∀ (fuel i : Nat) (dp : Nat → Int),
      1 ≤ i → fuel + i = N →
      (∀ x, x ≤ N → dp x = (waysUpTo (i - 1) x : Int)) →
      ∀ x, x ≤ N → twsOuterGo N fuel i dp x = (waysUpTo (N - 1) x : Int) := by
  intro fuel
  induction fuel with
  | zero =>
      intro i dp _ hfi hinv x hx
      have hiN : i = N := by omega
      subst hiN
      exact hinv x hx
  | succ fuel ih =>
      intro i dp hi hfi hinv x hx
      obtain ⟨k, rfl⟩ : ∃ k, i = k + 1 := ⟨i - 1, by omega⟩
      have hkN : k + 1 < N := by omega
      have hlt : ∀ y, y < k + 1 → dp y = (waysUpTo (k + 1) y : Int) := by
        intro y hy
        rw [hinv y (by omega), waysUpTo_succ_of_lt hy]
        simp
      have hge : ∀ y, k + 1 ≤ y → y ≤ N → dp y = (waysUpTo k y : Int) := by
        intro y _ hyN
        have := hinv y hyN
        simpa using this
      have hinner := twsInnerGo_spec k N (N + 1 - (k + 1)) (k + 1) dp
        (le_refl _) (by omega) hlt hge
      have hstep : twsOuterGo N (fuel + 1) (k + 1) dp =
          twsOuterGo N fuel (k + 2) (twsInnerGo (k + 1) (N + 1 - (k + 1)) (k + 1) dp) := rfl
      rw [hstep]
      apply ih (k + 2) _ (by omega) (by omega) ?_ x hx
      intro y hy
      have hybound : y < (k + 1) + (N + 1 - (k + 1)) := by omega
      rw [hinner.1 y hybound]
      norm_num

/-- C5: for every integer N at least 1, solveTotalWaysToSum(N) is the
number of ways to write N as an unordered sum of positive integers each
strictly less than N (partitions of N with all parts below N, the
single-part partition N itself excluded). -/
theorem c5_totalWaysToSum_counts_bounded_partitions (N : Nat) (hN : 1 ≤ N) :
    solveTotalWaysToSum (JSVal.num (N : Int)) =
      Except.ok (JSVal.num ((Finset.univ.filter
        fun p : Nat.Partition N => ∀ i ∈ p.parts, i < N).card)) := by
  have hguard : ¬((N : Int) + 1 < 0) := by omega
  have hneg : ¬((N : Int) < 0) := by omega
  have htn : ((N : Int)).toNat = N := Int.toNat_natCast N
  have hdp0 : ∀ x, x ≤ N →
      Function.update (fun _ => (0 : Int)) 0 1 x = (waysUpTo 0 x : Int) := by
    intro x _
    by_cases hx : x = 0
    · subst hx
      rw [Function.update_same]
      simp [waysUpTo]
    · rw [Function.update_noteq hx]
      simp [waysUpTo, hx]
  have hdp := twsOuterGo_spec N (N - 1) 1 (Function.update (fun _ => 0) 0 1)
    (le_refl 1) (by omega) hdp0 N (le_refl N)
  have hcardeq : (Finset.univ.filter fun p : Nat.Partition N => ∀ i ∈ p.parts, i < N) =
      partsLE (N - 1) N := by
    rw [partsLE]
    apply Finset.filter_congr
    intro p _
    constructor
    · intro hall i hi
      have := hall i hi
      omega
    · intro hall i hi
      have h1 := hall i hi
      have h2 := p.parts_pos hi
      omega
  rw [hcardeq, card_partsLE]
  show (if (N : Int) + 1 < 0 then Except.error JSErr.rangeError
      else Except.ok (JSVal.num (jsOrZero (if (N : Int) < 0 then none
        else some (twsOuterGo ((N : Int)).toNat (((N : Int)).toNat - 1) 1
          (Function.update (fun _ => 0) 0 1) ((N : Int)).toNat))))) =
    Except.ok (JSVal.num (waysUpTo (N - 1) N : Int))
  rw [if_neg hguard, if_neg hneg, htn]
  show Except.ok (JSVal.num (jsOrZero (some _))) = _
  rw [jsOrZero, Option.getD_some, hdp]

/-- C5 witness: the theorem applied at N = 4. -/
theorem c5_totalWaysToSum_witness :
    1 ≤ (4 : Nat) ∧
      solveTotalWaysToSum (JSVal.num ((4 : Nat) : Int)) =
        Except.ok (JSVal.num ((Finset.univ.filter
          fun p : Nat.Partition 4 => ∀ i ∈ p.parts, i < 4).card)) :=
  ⟨by decide, c5_totalWaysToSum_counts_bounded_partitions 4 (by decide)⟩

theorem stockDPGo_append (k : Nat) (p : Int) :
    ∀ (l : List Int) (bs : (Nat → WithBot Int) × (Nat → WithBot Int)),
      stockDPGo k (l ++ [p]) bs = stockStep k p (stockDPGo k l bs) := by
  intro l
  induction l with
  | nil => intro bs; rfl
  | cons x r ih => intro bs; exact ih (stockStep k x bs)

theorem stockDPGo_eq_MB (k : Nat) (l : List Int) :
    stockDPGo k l (fun _ => ⊥, fun _ => ((0 : Int) : WithBot Int)) =
      stockMB k l.reverse := by
  induction l using List.reverseRecOn with
  | nil => rfl
  | append_singleton l p ih =>
      rw [stockDPGo_append, ih, List.reverse_append]
      rfl

theorem gainRev_concat (a b : Int) :
    ∀ l : List Int,
      gainRev (l ++ [a, b]) = gainRev (l ++ [a]) + (if b < a then a - b else 0) := by
  intro l
  induction l with
  | nil =>
      show gainRev [a, b] = gainRev [a] + _
      simp [gainRev]
  | cons c r ih =>
      cases r with
      | nil =>
          show gainRev [c, a, b] = gainRev [c, a] + _
          simp only [gainRev]
          ring
      | cons d r' =>
          show gainRev (c :: d :: (r' ++ [a, b])) = gainRev (c :: d :: (r' ++ [a])) + _
          rw [gainRev, gainRev]
          rw [show d :: (r' ++ [a, b]) = (d :: r') ++ [a, b] by rfl]
          rw [show d :: (r' ++ [a]) = (d :: r') ++ [a] by rfl]
          rw [ih]
          ring

theorem stockShortcutGo_eq_gainRev :
    ∀ (l : List Int) (prev : Int),
      stockShortcutGo prev l = gainRev (l.reverse ++ [prev]) := by
  intro l
  induction l with
  | nil => intro prev; simp [stockShortcutGo, gainRev]
  | cons x r ih =>
      intro prev
      rw [stockShortcutGo, ih x]
      rw [List.reverse_cons, List.append_assoc]
      rw [show ([x] ++ [prev] : List Int) = [x, prev] by rfl]
      rw [gainRev_concat x prev]
      ring

theorem stockShortcut_eq_gainRev (l : List Int) :
    gainRev l.reverse = stockShortcut l := by
  cases l with
  | nil => rfl
  | cons p r =>
      rw [stockShortcut, stockShortcutGo_eq_gainRev r p, List.reverse_cons]

/-- Upper bound: after any prices, `sell[j]` is at most the sum of
positive deltas and `buy[j]` at most that sum minus the latest price. -/
theorem stockMB_upper (k : Nat) :
    ∀ (t : List Int) (p : Int) (j : Nat),
      (stockMB k (p :: t)).2 j ≤ ((gainRev (p :: t) : Int) : WithBot Int) ∧
        (stockMB k (p :: t)).1 j ≤ ((gainRev (p :: t) - p : Int) : WithBot Int) := by
  intro t
  induction t with
  | nil =>
      intro p j
      simp only [stockMB, stockStep]
      constructor
      · by_cases hik : 1 ≤ j ∧ j ≤ k
        · rw [if_pos hik]
          apply max_le
          · rw [WithBot.coe_le_coe]
            simp [gainRev]
          · rw [WithBot.bot_add]
            exact bot_le
        · rw [if_neg hik]
          rw [WithBot.coe_le_coe]
          simp [gainRev]
      · by_cases hik : 1 ≤ j ∧ j ≤ k
        · rw [if_pos hik]
          apply max_le bot_le
          rw [← WithBot.coe_add, WithBot.coe_le_coe]
          simp [gainRev]
        · rw [if_neg hik]
          exact bot_le
  | cons q r ih =>
      intro p j
      obtain ⟨ihs, ihb⟩ := ih q j
      have hc1 : ((gainRev (q :: r) : Int) : WithBot Int) ≤
          ((gainRev (p :: q :: r) : Int) : WithBot Int) := by
        rw [WithBot.coe_le_coe]
        simp only [gainRev]
        split_ifs with h <;> omega
      have hc2 : ((gainRev (q :: r) - q : Int) : WithBot Int) + ((p : Int) : WithBot Int) ≤
          ((gainRev (p :: q :: r) : Int) : WithBot Int) := by
        rw [← WithBot.coe_add, WithBot.coe_le_coe]
        simp only [gainRev]
        split_ifs with h <;> omega
      have hc3 : ((gainRev (q :: r) - q : Int) : WithBot Int) ≤
          ((gainRev (p :: q :: r) - p : Int) : WithBot Int) := by
        rw [WithBot.coe_le_coe]
        simp only [gainRev]
        split_ifs with h <;> omega
      have hc4 : ((gainRev (q :: r) : Int) : WithBot Int) + ((-p : Int) : WithBot Int) ≤
          ((gainRev (p :: q :: r) - p : Int) : WithBot Int) := by
        rw [← WithBot.coe_add, WithBot.coe_le_coe]
        simp only [gainRev]
        split_ifs with h <;> omega
      rw [show stockMB k (p :: q :: r) = stockStep k p (stockMB k (q :: r)) from rfl]
      constructor
      · show (if 1 ≤ j ∧ j ≤ k then
            max ((stockMB k (q :: r)).2 j)
              ((stockMB k (q :: r)).1 j + ((p : Int) : WithBot Int))
          else (stockMB k (q :: r)).2 j) ≤ _
        by_cases hik : 1 ≤ j ∧ j ≤ k
        · rw [if_pos hik]
          exact max_le (le_trans ihs hc1) (le_trans (add_le_add_right ihb _) hc2)
        · rw [if_neg hik]
          exact le_trans ihs hc1
      · show (if 1 ≤ j ∧ j ≤ k then
            max ((stockMB k (q :: r)).1 j)
              ((stockMB k (q :: r)).2 (j - 1) + ((-p : Int) : WithBot Int))
          else (stockMB k (q :: r)).1 j) ≤ _
        by_cases hik : 1 ≤ j ∧ j ≤ k
        · rw [if_pos hik]
          exact max_le (le_trans ihb hc3)
            (le_trans (add_le_add_right (ih q (j - 1)).1 _) hc4)
        · rw [if_neg hik]
          exact le_trans ihb hc3

/-- Lower bound: with enough transactions allowed (`j` at least half the
number of prices processed), `sell[j]` reaches the sum of positive deltas,
and with one more, `buy[j]` reaches that sum minus the latest price. -/
theorem stockMB_lower (k : Nat) :
    ∀ (t : List Int) (p : Int) (j : Nat),
      ((p :: t).length / 2 ≤ j → j ≤ k →
        ((gainRev (p :: t) : Int) : WithBot Int) ≤ (stockMB k (p :: t)).2 j) ∧
        (((p :: t).length + 1) / 2 ≤ j → j ≤ k →
          ((gainRev (p :: t) - p : Int) : WithBot Int) ≤ (stockMB k (p :: t)).1 j) := by
  intro t
  induction t with
  | nil =>
      intro p j
      simp only [stockMB, stockStep]
      constructor
      · intro _ _
        by_cases hik : 1 ≤ j ∧ j ≤ k
        · rw [if_pos hik]
          refine le_trans ?_ (le_max_left _ _)
          rw [WithBot.coe_le_coe]
          simp [gainRev]
        · rw [if_neg hik]
          rw [WithBot.coe_le_coe]
          simp [gainRev]
      · intro hj hjk
        have hik : 1 ≤ j ∧ j ≤ k := ⟨by simpa using hj, hjk⟩
        rw [if_pos hik]
        refine le_trans ?_ (le_max_right _ _)
        rw [← WithBot.coe_add, WithBot.coe_le_coe]
        simp [gainRev]
  | cons q r ih =>
      intro p j
      constructor
      · intro hj hjk
        have hik : 1 ≤ j ∧ j ≤ k := by
          constructor
          · have : (p :: q :: r).length / 2 ≥ 1 := by
              simp only [List.length_cons]
              omega
            omega
          · exact hjk
        rw [show stockMB k (p :: q :: r) = stockStep k p (stockMB k (q :: r)) from rfl]
        show _ ≤ (if 1 ≤ j ∧ j ≤ k then
            max ((stockMB k (q :: r)).2 j)
              ((stockMB k (q :: r)).1 j + ((p : Int) : WithBot Int))
          else (stockMB k (q :: r)).2 j)
        rw [if_pos hik]
        by_cases hqp : q < p
        · refine le_trans ?_ (le_max_right _ _)
          have hbuy := (ih q j).2 (by
            simp only [List.length_cons] at hj ⊢
            omega) hjk
          refine le_trans ?_ (add_le_add_right hbuy _)
          rw [← WithBot.coe_add, WithBot.coe_le_coe]
          simp only [gainRev, if_pos hqp]
          omega
        · refine le_trans ?_ (le_max_left _ _)
          have hsell := (ih q j).1 (by
            simp only [List.length_cons] at hj ⊢
            omega) hjk
          refine le_trans ?_ hsell
          rw [WithBot.coe_le_coe]
          simp only [gainRev, if_neg hqp]
          omega
      · intro hj hjk
        have hik : 1 ≤ j ∧ j ≤ k := by
          constructor
          · simp only [List.length_cons] at hj
            omega
          · exact hjk
        rw [show stockMB k (p :: q :: r) = stockStep k p (stockMB k (q :: r)) from rfl]
        show _ ≤ (if 1 ≤ j ∧ j ≤ k then
            max ((stockMB k (q :: r)).1 j)
              ((stockMB k (q :: r)).2 (j - 1) + ((-p : Int) : WithBot Int))
          else (stockMB k (q :: r)).1 j)
        rw [if_pos hik]
        by_cases hqp : q < p
        · refine le_trans ?_ (le_max_left _ _)
          have hbuy := (ih q j).2 (by
            simp only [List.length_cons] at hj ⊢
            omega) hjk
          refine le_trans ?_ hbuy
          rw [WithBot.coe_le_coe]
          simp only [gainRev, if_pos hqp]
          omega
        · refine le_trans ?_ (le_max_right _ _)
          have hsell := (ih q (j - 1)).1 (by
            simp only [List.length_cons] at hj ⊢
            omega) (by omega)
          refine le_trans ?_ (add_le_add_right hsell _)
          rw [← WithBot.coe_add, WithBot.coe_le_coe]
          simp only [gainRev, if_neg hqp]
          omega

/-- C6: for every price list and every transaction bound `k` at least
`floor(n/2)`, the unlimited-transactions shortcut branch of
solveAlgorithmicStockTraderIV (sum of positive consecutive deltas) equals
the value `sell[k]` that the limited-transaction DP branch would compute
on the same input. -/
theorem c6_stockIV_shortcut_eq_dp (prices : List Int) (k : Nat)
    (hk : prices.length / 2 ≤ k) :
    ((stockShortcut prices : Int) : WithBot Int) = stockDP k prices := by
  cases prices with
  | nil => rfl
  | cons p r =>
      rw [stockDP, stockDPGo_eq_MB]
      have hrev : (p :: r).reverse ≠ [] := by simp
      obtain ⟨p', t', hrep⟩ : ∃ p' t', (p :: r).reverse = p' :: t' := by
        cases hcase : (p :: r).reverse with
        | nil => exact absurd hcase hrev
        | cons a b => exact ⟨a, b, rfl⟩
      rw [hrep]
      have hlen : (p' :: t').length = (p :: r).length := by
        rw [← hrep, List.length_reverse]
      have hupper := (stockMB_upper k t' p' k).1
      have hlower := (stockMB_lower k t' p' k).1 (by rw [hlen]; exact hk) (le_refl k)
      have hG : gainRev (p' :: t') = stockShortcut (p :: r) := by
        rw [← hrep, stockShortcut_eq_gainRev]
      rw [hG] at hupper hlower
      exact le_antisymm hlower hupper

/-- C6 witness: the theorem applied to the spec's test vector
`[3,2,6,5,0,3]` with `k = 3 = floor(6/2)`. -/
theorem c6_stockIV_witness :
    ([3, 2, 6, 5, 0, 3] : List Int).length / 2 ≤ 3 ∧
      ((stockShortcut [3, 2, 6, 5, 0, 3] : Int) : WithBot Int) =
        stockDP 3 [3, 2, 6, 5, 0, 3] :=
  ⟨by decide, c6_stockIV_shortcut_eq_dp [3, 2, 6, 5, 0, 3] 3 (by decide)⟩

/-- The arithmetic-geometric mean step: from any positive guess, one
Newton step lands at or above the integer square root. -/
theorem newton_step_ge_sqrt (n x : Nat) (hx : 1 ≤ x) :
    Nat.sqrt n ≤ (x + n / x) / 2 := by
  have hs : Nat.sqrt n * Nat.sqrt n ≤ n := Nat.sqrt_le n
  rw [Nat.le_div_iff_mul_le (by omega : 0 < 2)]
  rcases le_or_lt (2 * Nat.sqrt n) x with h2x | h2x
  · calc Nat.sqrt n * 2 = 2 * Nat.sqrt n := by ring
      _ ≤ x := h2x
      _ ≤ x + n / x := Nat.le_add_right _ _
  · have hmul : (2 * Nat.sqrt n - x) * x ≤ n := by
      refine le_trans ?_ hs
      have hle : x ≤ 2 * Nat.sqrt n := le_of_lt h2x
      zify [hle]
      nlinarith [sq_nonneg ((Nat.sqrt n : Int) - x)]
    have hdiv : 2 * Nat.sqrt n - x ≤ n / x :=
      (Nat.le_div_iff_mul_le (by omega : 0 < x)).mpr hmul
    omega

/-- The loop's exit test: the next guess fails to decrease exactly when
the current guess is already at most the square root. -/
theorem newton_exit (n x : Nat) (hx : 1 ≤ x) :
    ¬((x + n / x) / 2 < x) ↔ x * x ≤ n := by
  rw [not_lt]
  constructor
  · intro h
    have h2 : 2 * x ≤ x + n / x := by
      have := (Nat.le_div_iff_mul_le (by omega : 0 < 2)).mp h
      omega
    have hxd : x ≤ n / x := by omega
    have := (Nat.le_div_iff_mul_le (by omega : 0 < x)).mp hxd
    omega
  · intro h
    have hxd : x ≤ n / x := (Nat.le_div_iff_mul_le (by omega : 0 < x)).mpr (by omega)
    rw [Nat.le_div_iff_mul_le (by omega : 0 < 2)]
    omega

/-- The Newton loop started at or above the square root of a positive
number stops exactly at the square root. -/
theorem newtonIter_eq_sqrt (n : Nat) (hn : 1 ≤ n) :
    ∀ x, 1 ≤ x → Nat.sqrt n ≤ x → newtonIter n x = Nat.sqrt n := by
  intro x
  induction x using Nat.strong_induction_on with
  | _ x ih =>
      intro hx hsx
      rw [newtonIter]
      by_cases hlt : (x + n / x) / 2 < x
      · rw [if_pos hlt]
        have hy1 : 1 ≤ (x + n / x) / 2 := by
          have := newton_step_ge_sqrt n x hx
          have hs1 : 1 ≤ Nat.sqrt n := Nat.le_sqrt.mpr (by omega)
          omega
        exact ih _ hlt hy1 (newton_step_ge_sqrt n x hx)
      · rw [if_neg hlt]
        have hxx : x * x ≤ n := (newton_exit n x hx).mp hlt
        have := Nat.le_sqrt.mpr hxx
        omega

/-- The initial guess `2 ^ ceil(bitLength / 2)` dominates the square
root. -/
theorem sqrt_lt_initial (n : Nat) :
    Nat.sqrt n < 2 ^ ((Nat.size n + 1) / 2) := by
  rw [Nat.sqrt_lt]
  calc n < 2 ^ Nat.size n := Nat.lt_size_self n
    _ ≤ 2 ^ ((Nat.size n + 1) / 2) * 2 ^ ((Nat.size n + 1) / 2) := by
        rw [← pow_add]
        exact Nat.pow_le_pow_right (by omega) (by omega)

/-- solveSquareRootVal rounds the exact square root: it is the floor
square root, bumped to the next integer exactly when that is strictly
nearer. -/
theorem solveSquareRootVal_eq (n : Nat) :
    solveSquareRootVal n =
      if ((Nat.sqrt n : Int) + 1) * ((Nat.sqrt n : Int) + 1) - n <
          (n : Int) - (Nat.sqrt n : Int) * (Nat.sqrt n : Int)
      then Nat.sqrt n + 1 else Nat.sqrt n := by
  rw [solveSquareRootVal]
  by_cases h2 : n < 2
  · rw [if_pos h2]
    interval_cases n
    · simp
    · simp
  · rw [if_neg h2]
    have hx0 : 1 ≤ 2 ^ ((Nat.size n + 1) / 2) := Nat.one_le_two_pow
    have hiter : newtonIter n (2 ^ ((Nat.size n + 1) / 2)) = Nat.sqrt n :=
      newtonIter_eq_sqrt n (by omega) _ hx0 (le_of_lt (sqrt_lt_initial n))
    simp only [hiter]

/-- Fuel does not matter once it exceeds the number: extra fuel only
prepends the same digits. -/
theorem decDigitsGo_spill :
    ∀ (n : Nat), ∀ (fuel : Nat) (acc : JSStr), n < fuel →
      decDigitsGo fuel n acc = decDigitsGo (n + 1) n [] ++ acc := by
  intro n
  induction n using Nat.strong_induction_on with
  | _ n ih =>
      intro fuel acc hfuel
      obtain ⟨f, rfl⟩ : ∃ f, fuel = f + 1 := ⟨fuel - 1, by omega⟩
      by_cases h10 : n < 10
      · rw [decDigitsGo, if_pos h10, decDigitsGo, if_pos h10]
        rfl
      · rw [decDigitsGo, if_neg h10]
        have hdiv : n / 10 < n := Nat.div_lt_self (by omega) (by omega)
        rw [ih (n / 10) hdiv f _ (by omega)]
        conv_rhs => rw [decDigitsGo, if_neg h10, ih (n / 10) hdiv n _ (by omega)]
        rw [List.append_assoc]
        rfl

/-- The digit recursion for `decimalRepr`. -/
theorem decimalRepr_step (n : Nat) (h10 : 10 ≤ n) :
    decimalRepr n = decimalRepr (n / 10) ++ [48 + n % 10] := by
  rw [decimalRepr, decimalRepr, decDigitsGo, if_neg (by omega)]
  have hdiv : n / 10 < n := Nat.div_lt_self (by omega) (by omega)
  exact decDigitsGo_spill (n / 10) n _ (by omega)

/-- The digit base case for `decimalRepr`. -/
theorem decimalRepr_small (n : Nat) (h10 : n < 10) :
    decimalRepr n = [48 + n] := by
  rw [decimalRepr, decDigitsGo, if_pos h10]

/-- A decimal string is nonempty and consists of decimal digit units. -/
theorem decimalRepr_digits :
    ∀ n : Nat, decimalRepr n ≠ [] ∧ ∀ c ∈ decimalRepr n, 48 ≤ c ∧ c ≤ 57 := by
  intro n
  induction n using Nat.strong_induction_on with
  | _ n ih =>
      by_cases h10 : n < 10
      · rw [decimalRepr_small n h10]
        refine ⟨by simp, ?_⟩
        intro c hc
        simp only [List.mem_singleton] at hc
        omega
      · rw [decimalRepr_step n (by omega)]
        have hdiv : n / 10 < n := Nat.div_lt_self (by omega) (by omega)
        obtain ⟨hne, hdig⟩ := ih (n / 10) hdiv
        refine ⟨by simp [hne], ?_⟩
        intro c hc
        rcases List.mem_append.mp hc with hc | hc
        · exact hdig c hc
        · simp only [List.mem_singleton] at hc
          have := Nat.mod_lt n (show 0 < 10 by omega)
          omega

/-- The accumulating digit parser on an all-digit string succeeds and
folds the digits onto the accumulator. -/
theorem parseDigitsGo_digits :
    ∀ (l : JSStr) (acc : Nat), (∀ c ∈ l, 48 ≤ c ∧ c ≤ 57) →
      parseDigitsGo decDigit? 10 acc l =
        some (l.foldl (fun a c => a * 10 + (c - 48)) acc) := by
  intro l
  induction l with
  | nil => intro acc _; rfl
  | cons c r ih =>
      intro acc hdig
      have hc := hdig c (List.mem_cons_self _ _)
      rw [parseDigitsGo]
      rw [show decDigit? c = some (c - 48) by rw [decDigit?, if_pos hc]]
      show parseDigitsGo decDigit? 10 (acc * 10 + (c - 48)) r = _
      rw [ih _ fun x hx => hdig x (List.mem_cons_of_mem _ hx)]
      rfl

/-- Folding the digits of `decimalRepr n` onto an accumulator shifts the
accumulator by the digit count and adds `n`. -/
theorem decimalRepr_foldl :
    ∀ (n : Nat) (acc : Nat),
      (decimalRepr n).foldl (fun a c => a * 10 + (c - 48)) acc =
        acc * 10 ^ (decimalRepr n).length + n := by
  intro n
  induction n using Nat.strong_induction_on with
  | _ n ih =>
      intro acc
      by_cases h10 : n < 10
      · rw [decimalRepr_small n h10]
        simp only [List.foldl_cons, List.foldl_nil, List.length_singleton, pow_one]
        omega
      · rw [decimalRepr_step n (by omega)]
        have hdiv : n / 10 < n := Nat.div_lt_self (by omega) (by omega)
        rw [List.foldl_append, ih (n / 10) hdiv acc]
        simp only [List.foldl_cons, List.foldl_nil, List.length_append,
          List.length_singleton]
        rw [pow_succ]
        have hmod : 48 + n % 10 - 48 = n % 10 := by omega
        rw [hmod]
        have := Nat.div_add_mod n 10
        ring_nf
        omega

/-- Decimal digit units are not JavaScript whitespace. -/
theorem jsTrim_of_digits (s : JSStr) (h : ∀ c ∈ s, 48 ≤ c ∧ c ≤ 57) :
    jsTrim s = s := by
  have hws : ∀ c ∈ s, jsWhitespace c = false := by
    intro c hc
    have hcd := h c hc
    rw [jsWhitespace, decide_eq_false_iff_not]
    simp only [List.mem_cons, List.not_mem_nil, or_false]
    omega
  have hdrop : ∀ (l : JSStr), (∀ c ∈ l, jsWhitespace c = false) → l.dropWhile jsWhitespace = l := by
    intro l hl
    cases l with
    | nil => rfl
    | cons c r =>
        rw [List.dropWhile_cons_of_neg]
        rw [hl c (List.mem_cons_self _ _)]
        simp
  rw [jsTrim, hdrop s hws, hdrop s.reverse
    (by intro c hc; exact hws c (List.mem_reverse.mp hc)), List.reverse_reverse]

/-- StringToBigInt of a printed decimal is the number itself. -/
theorem jsBigIntOfStr_decimalRepr (n : Nat) :
    jsBigIntOfStr (decimalRepr n) = some (n : Int) := by
  obtain ⟨hne, hdig⟩ := decimalRepr_digits n
  have htrim : jsTrim (decimalRepr n) = decimalRepr n := jsTrim_of_digits _ hdig
  have hval : (parseRadix decDigit? 10 (decimalRepr n)).map (fun v => (v : Int)) =
      some (n : Int) := by
    cases hrep : decimalRepr n with
    | nil => exact absurd hrep hne
    | cons c rest =>
        rw [parseRadix, parseDigitsGo_digits _ 0 (by rw [← hrep]; exact hdig)]
        rw [← hrep, decimalRepr_foldl n 0]
        simp
  cases hrep : decimalRepr n with
  | nil => exact absurd hrep hne
  | cons c rest =>
      have hdig' : ∀ x ∈ c :: rest, 48 ≤ x ∧ x ≤ 57 := by rw [← hrep]; exact hdig
      have hc := hdig' c (List.mem_cons_self _ _)
      rw [hrep] at htrim hval
      rw [jsBigIntOfStr, htrim, jsBigIntBody]
      by_cases hc48 : c = 48
      · subst hc48
        rw [if_neg (by omega), if_neg (by omega), if_pos rfl]
        cases rest with
        | nil =>
            rw [jsBigIntZeroTail]
            exact hval
        | cons c2 r2 =>
            have hc2 := hdig' c2 (by simp)
            rw [jsBigIntZeroTail, if_neg (by omega), if_neg (by omega), if_neg (by omega)]
            exact hval
      · rw [if_neg (by omega), if_neg (by omega), if_neg hc48]
        exact hval

/-- The rounded square root minimizes the squared distance, ties going to
the floor root. -/
theorem solveSquareRootVal_min (n : Nat) :
    (∀ m' : Nat,
      |(n : Int) - (solveSquareRootVal n : Int) * (solveSquareRootVal n : Int)| ≤
        |(n : Int) - (m' : Int) * (m' : Int)|) ∧
    ((n : Int) - (Nat.sqrt n : Int) * (Nat.sqrt n : Int) =
        ((Nat.sqrt n : Int) + 1) * ((Nat.sqrt n : Int) + 1) - (n : Int) →
      solveSquareRootVal n = Nat.sqrt n) := by
  rw [solveSquareRootVal_eq]
  have hd1 : (Nat.sqrt n : Int) * (Nat.sqrt n : Int) ≤ (n : Int) := by
    exact_mod_cast Nat.sqrt_le n
  have hd2 : (n : Int) < ((Nat.sqrt n : Int) + 1) * ((Nat.sqrt n : Int) + 1) := by
    have h := Nat.lt_succ_sqrt n
    rw [Nat.succ_eq_add_one] at h
    exact_mod_cast h
  constructor
  · intro m'
    by_cases hcase : ((Nat.sqrt n : Int) + 1) * ((Nat.sqrt n : Int) + 1) - (n : Int) <
        (n : Int) - (Nat.sqrt n : Int) * (Nat.sqrt n : Int)
    · rw [if_pos hcase]
      have hval : |(n : Int) - ((Nat.sqrt n + 1 : Nat) : Int) * ((Nat.sqrt n + 1 : Nat) : Int)| =
          ((Nat.sqrt n : Int) + 1) * ((Nat.sqrt n : Int) + 1) - (n : Int) := by
        push_cast
        rw [abs_of_nonpos (by linarith)]
        ring
      rw [hval]
      rcases le_or_lt m' (Nat.sqrt n) with hm | hm
      · have hm2 : (m' : Int) * (m' : Int) ≤ (Nat.sqrt n : Int) * (Nat.sqrt n : Int) := by
          exact_mod_cast Nat.mul_le_mul hm hm
        rw [abs_of_nonneg (by linarith)]
        linarith
      · have hm1 : Nat.sqrt n + 1 ≤ m' := hm
        have hm2 : ((Nat.sqrt n : Int) + 1) * ((Nat.sqrt n : Int) + 1) ≤
            (m' : Int) * (m' : Int) := by
          exact_mod_cast Nat.mul_le_mul hm1 hm1
        rw [abs_of_nonpos (by linarith)]
        linarith
    · rw [if_neg hcase]
      rw [abs_of_nonneg (by linarith)]
      rcases le_or_lt m' (Nat.sqrt n) with hm | hm
      · have hm2 : (m' : Int) * (m' : Int) ≤ (Nat.sqrt n : Int) * (Nat.sqrt n : Int) := by
          exact_mod_cast Nat.mul_le_mul hm hm
        rw [abs_of_nonneg (by linarith)]
        linarith
      · have hm1 : Nat.sqrt n + 1 ≤ m' := hm
        have hm2 : ((Nat.sqrt n : Int) + 1) * ((Nat.sqrt n : Int) + 1) ≤
            (m' : Int) * (m' : Int) := by
          exact_mod_cast Nat.mul_le_mul hm1 hm1
        rw [abs_of_nonpos (by linarith)]
        linarith
  · intro htie
    rw [if_neg (by rw [htie]; exact lt_irrefl _)]

/-- solveSquareRoot on a printed decimal parses back the number and prints
the rounded square root. -/
theorem solveSquareRoot_decimal (n : Nat) :
    solveSquareRoot (JSVal.str (decimalRepr n)) =
      Except.ok (decimalRepr (solveSquareRootVal n)) := by
  have hbig : jsBigIntOfVal (JSVal.str (decimalRepr n)) = some (n : Int) :=
    jsBigIntOfStr_decimalRepr n
  unfold solveSquareRoot
  rw [hbig]
  show (if (n : Int) < 0 then Except.error JSErr.rangeError
      else Except.ok (decimalRepr (solveSquareRootVal ((n : Int)).toNat))) = _
  rw [if_neg (by omega), Int.toNat_natCast]

theorem sqrtVal_sixteen : solveSquareRootVal 16 = 4 := by
  have hsqrt : Nat.sqrt 16 = 4 := by
    rw [show (16 : Nat) = 4 * 4 from rfl, Nat.sqrt_eq]
  rw [solveSquareRootVal_eq, hsqrt]
  norm_num

theorem sqrtVal_twentyfive : solveSquareRootVal 25 = 5 := by
  have hsqrt : Nat.sqrt 25 = 5 := by
    rw [show (25 : Nat) = 5 * 5 from rfl, Nat.sqrt_eq]
  rw [solveSquareRootVal_eq, hsqrt]
  norm_num

/-- C9: for every nonnegative integer given as a decimal string,
solveSquareRoot returns the decimal string of the integer nearest to the
exact square root, rounding the halfway case down to the floor root; in
particular "16" gives "4" and "25" gives "5". -/
theorem c9_squareRoot_rounds_to_nearest (n : Nat) :
    solveSquareRoot (JSVal.str (decimalRepr n)) =
        Except.ok (decimalRepr (solveSquareRootVal n)) ∧
      (∀ m' : Nat,
        |(n : Int) - (solveSquareRootVal n : Int) * (solveSquareRootVal n : Int)| ≤
          |(n : Int) - (m' : Int) * (m' : Int)|) ∧
      ((n : Int) - (Nat.sqrt n : Int) * (Nat.sqrt n : Int) =
          ((Nat.sqrt n : Int) + 1) * ((Nat.sqrt n : Int) + 1) - (n : Int) →
        solveSquareRootVal n = Nat.sqrt n) ∧
      solveSquareRoot (JSVal.str [49, 54]) = Except.ok [52] ∧
      solveSquareRoot (JSVal.str [50, 53]) = Except.ok [53] := by
  refine ⟨solveSquareRoot_decimal n, (solveSquareRootVal_min n).1,
    (solveSquareRootVal_min n).2, ?_, ?_⟩
  · have h := solveSquareRoot_decimal 16
    rw [sqrtVal_sixteen] at h
    exact h
  · have h := solveSquareRoot_decimal 25
    rw [sqrtVal_twentyfive] at h
    exact h

/-! ### Proper 2-coloring: BFS-step lemmas -/

/-- Coloring an uncolored in-range vertex drops the uncolored count by
exactly one. -/
theorem uncolored_update (n nb : Nat) (cs : Nat → Int) (x : Int)
    (hnb : nb < n) (hold : cs nb = -1) (hx : x ≠ -1) :
    uncolored n (Function.update cs nb x) + 1 = uncolored n cs := by
  have hset : ((Finset.range n).filter fun v => Function.update cs nb x v = -1) =
      ((Finset.range n).filter fun v => cs v = -1).erase nb := by
    ext v
    simp only [Finset.mem_filter, Finset.mem_erase, Finset.mem_range]
    constructor
    · rintro ⟨hv, hval⟩
      by_cases hvnb : v = nb
      · subst hvnb; rw [Function.update_same] at hval; exact absurd hval hx
      · rw [Function.update_noteq hvnb] at hval; exact ⟨hvnb, hv, hval⟩
    · rintro ⟨hvnb, hv, hval⟩
      exact ⟨hv, by rw [Function.update_noteq hvnb]; exact hval⟩
  have hmem : nb ∈ (Finset.range n).filter fun v => cs v = -1 := by
    simp only [Finset.mem_filter, Finset.mem_range]; exact ⟨hnb, hold⟩
  have hpos : 0 < ((Finset.range n).filter fun v => cs v = -1).card :=
    Finset.card_pos.mpr ⟨nb, hmem⟩
  rw [uncolored, uncolored, hset, Finset.card_erase_of_mem hmem]
  omega

/-- A conflict in the neighbor loop can only involve a previously colored
neighbor, because the colors it writes itself are opposite to the current
vertex's color. -/
theorem processNbrs_none_spec (cur : Nat) :
    ∀ (nbs : List Nat) (cs : Nat → Int) (q : List Nat),
      (cs cur = 0 ∨ cs cur = 1) →
      processNbrs cs q cur nbs = none →
      ∃ nb ∈ nbs, cs nb = cs cur := by
  intro nbs
  induction nbs with
  | nil => intro cs q _ h; rw [processNbrs] at h; exact absurd h (by simp)
  | cons nb rest ih =>
      intro cs q hcur h
      rw [processNbrs] at h
      by_cases h1 : cs nb = -1
      · rw [if_pos h1] at h
        have hcurnb : cur ≠ nb := fun he => by
          rw [he, h1] at hcur; rcases hcur with h0 | h0 <;> exact absurd h0 (by decide)
        have hc1 : Function.update cs nb (1 - cs cur) cur = cs cur :=
          Function.update_noteq (Ne.symm (Ne.symm hcurnb)) _ _
        obtain ⟨nb', hmem, hval⟩ := ih _ _ (by rw [hc1]; exact hcur) h
        rw [hc1] at hval
        have hne : nb' ≠ nb := by
          intro he
          rw [he, Function.update_same] at hval
          rcases hcur with h0 | h0 <;> rw [h0] at hval <;> exact absurd hval (by decide)
        rw [Function.update_noteq hne] at hval
        exact ⟨nb', List.mem_cons_of_mem _ hmem, hval⟩
      · rw [if_neg h1] at h
        by_cases h2 : cs nb = cs cur
        · exact ⟨nb, List.mem_cons_self nb rest, h2⟩
        · rw [if_neg h2] at h
          obtain ⟨nb', hmem, hval⟩ := ih _ _ hcur h
          exact ⟨nb', List.mem_cons_of_mem _ hmem, hval⟩

/-- Everything the development needs about a completed neighbor loop: the
loop measure does not grow, colored vertices keep their color, every write
is the opposite color, every processed neighbor ends up colored and
different from the current vertex, every vertex colored by the loop is
enqueued, and the queue grows exactly by those newly colored neighbors. -/
theorem processNbrs_some_spec (n cur : Nat) :
    ∀ (nbs : List Nat) (cs : Nat → Int) (q : List Nat)
      (res : (Nat → Int) × List Nat),
      (∀ v ∈ nbs, v < n) → (cs cur = 0 ∨ cs cur = 1) →
      processNbrs cs q cur nbs = some res →
      (2 * uncolored n res.1 + res.2.length ≤ 2 * uncolored n cs + q.length) ∧
      (∀ v, cs v ≠ -1 → res.1 v = cs v) ∧
      (∀ v, res.1 v = cs v ∨ res.1 v = 1 - cs cur) ∧
      (∀ nb ∈ nbs, res.1 nb ≠ -1 ∧ res.1 nb ≠ res.1 cur) ∧
      (∀ v, cs v = -1 → res.1 v ≠ -1 → v ∈ res.2) ∧
      (∃ newq, res.2 = q ++ newq ∧
        ∀ v ∈ newq, v ∈ nbs ∧ cs v = -1 ∧ res.1 v = 1 - cs cur) := by
  intro nbs
  induction nbs with
  | nil =>
      intro cs q res _ _ h
      rw [processNbrs] at h
      cases h
      refine ⟨le_rfl, fun v _ => rfl, fun v => Or.inl rfl, by simp, ?_, [], by simp, by simp⟩
      intro v hv hv'; exact absurd hv hv'
  | cons nb rest ih =>
      intro cs q res hlt hcur h
      rw [processNbrs] at h
      by_cases h1 : cs nb = -1
      · rw [if_pos h1] at h
        have hnbn : nb < n := hlt nb (List.mem_cons_self nb rest)
        have hnewval : (1 : Int) - cs cur ≠ -1 := by
          rcases hcur with h0 | h0 <;> rw [h0] <;> decide
        have hcurnb : cur ≠ nb := fun he => by
          rw [he, h1] at hcur; rcases hcur with h0 | h0 <;> exact absurd h0 (by decide)
        have hc1cur : Function.update cs nb (1 - cs cur) cur = cs cur :=
          Function.update_noteq hcurnb _ _
        obtain ⟨hm, hext, hvals, hdone, hnewcol, newq, hq, hprops⟩ :=
          ih _ _ res (fun v hv => hlt v (List.mem_cons_of_mem _ hv))
            (by rw [hc1cur]; exact hcur) h
        have hc1nb : Function.update cs nb (1 - cs cur) nb = 1 - cs cur :=
          Function.update_same nb _ cs
        have hresnb : res.1 nb = 1 - cs cur := by
          rw [hext nb (by rw [hc1nb]; exact hnewval), hc1nb]
        have hrescur : res.1 cur = cs cur := by
          have hne : cs cur ≠ -1 := by
            rcases hcur with h0 | h0 <;> rw [h0] <;> decide
          rw [hext cur (by rw [hc1cur]; exact hne), hc1cur]
        refine ⟨?_, ?_, ?_, ?_, ?_, nb :: newq, ?_, ?_⟩
        · have hcount := uncolored_update n nb cs (1 - cs cur) hnbn h1 hnewval
          have hlen : (q ++ [nb]).length = q.length + 1 := by simp
          omega
        · intro v hv
          have hvnb : v ≠ nb := fun he => by rw [he] at hv; exact hv h1
          have : Function.update cs nb (1 - cs cur) v = cs v :=
            Function.update_noteq hvnb _ _
          rw [hext v (by rw [this]; exact hv), this]
        · intro v
          rcases hvals v with hv | hv
          · by_cases hvnb : v = nb
            · subst hvnb; rw [hv, hc1nb]; exact Or.inr rfl
            · rw [hv, Function.update_noteq hvnb]; exact Or.inl rfl
          · rw [hv, hc1cur]; exact Or.inr rfl
        · intro nb' hnb'
          rcases List.mem_cons.mp hnb' with he | hmem
          · subst he
            refine ⟨by rw [hresnb]; exact hnewval, ?_⟩
            rw [hresnb, hrescur]
            rcases hcur with h0 | h0 <;> rw [h0] <;> decide
          · exact hdone nb' hmem
        · intro v hv hv'
          by_cases hvnb : v = nb
          · subst hvnb
            rw [hq]
            exact List.mem_append.mpr (Or.inl (List.mem_append.mpr (Or.inr (by simp))))
          · have : Function.update cs nb (1 - cs cur) v = cs v :=
              Function.update_noteq hvnb _ _
            exact hnewcol v (by rw [this]; exact hv) hv'
        · rw [hq, List.append_assoc]; rfl
        · intro v hv
          rcases List.mem_cons.mp hv with he | hmem
          · exact ⟨by rw [he]; exact List.mem_cons_self nb rest,
              by rw [he]; exact h1, by rw [he]; exact hresnb⟩
          · obtain ⟨hm1, hm2, hm3⟩ := hprops v hmem
            have hvnb : v ≠ nb := fun he => by
              rw [he, hc1nb] at hm2; exact hnewval hm2
            have : Function.update cs nb (1 - cs cur) v = cs v :=
              Function.update_noteq hvnb _ _
            rw [this] at hm2
            rw [hc1cur] at hm3
            exact ⟨List.mem_cons_of_mem _ hm1, hm2, hm3⟩
      · rw [if_neg h1] at h
        by_cases h2 : cs nb = cs cur
        · rw [if_pos h2] at h; exact absurd h (by simp)
        · rw [if_neg h2] at h
          obtain ⟨hm, hext, hvals, hdone, hnewcol, newq, hq, hprops⟩ :=
            ih _ _ res (fun v hv => hlt v (List.mem_cons_of_mem _ hv)) hcur h
          refine ⟨hm, hext, hvals, ?_, hnewcol, newq, hq, ?_⟩
          · intro nb' hnb'
            rcases List.mem_cons.mp hnb' with he | hmem
            · subst he
              have hne : cs cur ≠ -1 := by
                rcases hcur with h0 | h0 <;> rw [h0] <;> decide
              rw [hext nb' h1, hext cur hne]
              exact ⟨h1, h2⟩
            · exact hdone nb' hmem
          · intro v hv
            obtain ⟨hm1, hm2, hm3⟩ := hprops v hv
            exact ⟨List.mem_cons_of_mem _ hm1, hm2, hm3⟩

/-- Invariant transfer over one BFS step (dequeue `cur`, run the neighbor
loop): the loop measure shrinks by at least the dequeued element, queued
vertices stay properly colored, colors stay in `{-1, 0, 1}`, fully
processed vertices keep conflict-free colored neighborhoods, colored
vertices keep their colors, and the new queue is the old tail plus the
newly colored neighbors of `cur`. -/
theorem bfs_state_step (n : Nat) (adj : Nat → List Nat)
    (cur : Nat) (rest : List Nat) (colors : Nat → Int)
    (res : (Nat → Int) × List Nat)
    (hq : ∀ v ∈ cur :: rest, colors v = 0 ∨ colors v = 1)
    (hA1 : ∀ v, colors v = -1 ∨ colors v = 0 ∨ colors v = 1)
    (hA3 : ∀ u, u < n → colors u ≠ -1 → u ∉ cur :: rest →
      ∀ nb ∈ adj u, colors nb ≠ -1 ∧ colors nb ≠ colors u)
    (hpn : processNbrs colors rest cur (adj cur) = some res)
    (hadj : ∀ v ∈ adj cur, v < n) :
    (2 * uncolored n res.1 + res.2.length ≤
      2 * uncolored n colors + rest.length) ∧
    (∀ v ∈ res.2, res.1 v = 0 ∨ res.1 v = 1) ∧
    (∀ v, res.1 v = -1 ∨ res.1 v = 0 ∨ res.1 v = 1) ∧
    (∀ u, u < n → res.1 u ≠ -1 → u ∉ res.2 →
      ∀ nb ∈ adj u, res.1 nb ≠ -1 ∧ res.1 nb ≠ res.1 u) ∧
    (∀ v, colors v ≠ -1 → res.1 v = colors v) ∧
    (∃ newq, res.2 = rest ++ newq ∧
      ∀ v ∈ newq, v ∈ adj cur ∧ colors v = -1 ∧ res.1 v = 1 - colors cur) := by
  have hcur : colors cur = 0 ∨ colors cur = 1 :=
    hq cur (List.mem_cons_self cur rest)
  have hcne : colors cur ≠ -1 := by
    rcases hcur with h0 | h0 <;> rw [h0] <;> decide
  obtain ⟨hm, hext, hvals, hdone, hnewcol, newq, hqeq, hprops⟩ :=
    processNbrs_some_spec n cur (adj cur) colors rest res hadj hcur hpn
  have hopp : (1 : Int) - colors cur = 0 ∨ (1 : Int) - colors cur = 1 := by
    rcases hcur with h0 | h0 <;> rw [h0] <;> [right; left] <;> decide
  refine ⟨hm, ?_, ?_, ?_, hext, newq, hqeq, hprops⟩
  · intro v hv
    rw [hqeq] at hv
    rcases List.mem_append.mp hv with hvr | hvn
    · have h01 := hq v (List.mem_cons_of_mem _ hvr)
      have hne : colors v ≠ -1 := by
        rcases h01 with h0 | h0 <;> rw [h0] <;> decide
      rw [hext v hne]; exact h01
    · obtain ⟨_, _, hval⟩ := hprops v hvn
      rw [hval]; exact hopp
  · intro v
    rcases hvals v with hv | hv
    · rw [hv]; exact hA1 v
    · rw [hv]; rcases hopp with h0 | h0 <;> rw [h0] <;> simp
  · intro u hun hucol hunotq nb hnb
    by_cases hucur : u = cur
    · subst hucur
      exact hdone nb hnb
    · by_cases holdcol : colors u = -1
      · exact absurd (hnewcol u holdcol hucol) hunotq
      · have hunotrest : u ∉ rest := fun hr =>
          hunotq (by rw [hqeq]; exact List.mem_append.mpr (Or.inl hr))
        have hunotcons : u ∉ cur :: rest := by
          intro hc
          rcases List.mem_cons.mp hc with he | hr
          · exact hucur he
          · exact hunotrest hr
        obtain ⟨hnb1, hnb2⟩ := hA3 u hun holdcol hunotcons nb hnb
        rw [hext nb hnb1, hext u holdcol]
        exact ⟨hnb1, hnb2⟩

/-- Soundness of the BFS loop: on normal exit, previously colored vertices
keep their colors, every color is in `{-1, 0, 1}`, and every colored
vertex has a fully colored, conflict-free neighborhood. -/
theorem bfsLoop_sound (n : Nat) (adj : Nat → List Nat)
    (hadj : ∀ u, ∀ v ∈ adj u, v < n) :
    ∀ (fuel : Nat) (queue : List Nat) (colors c' : Nat → Int),
      (∀ v ∈ queue, colors v = 0 ∨ colors v = 1) →
      (∀ v, colors v = -1 ∨ colors v = 0 ∨ colors v = 1) →
      (∀ u, u < n → colors u ≠ -1 → u ∉ queue →
        ∀ nb ∈ adj u, colors nb ≠ -1 ∧ colors nb ≠ colors u) →
      bfsLoop adj fuel queue colors = some (some c') →
      (∀ v, colors v ≠ -1 → c' v = colors v) ∧
      (∀ v, c' v = -1 ∨ c' v = 0 ∨ c' v = 1) ∧
      (∀ u, u < n → c' u ≠ -1 → ∀ nb ∈ adj u, c' nb ≠ -1 ∧ c' nb ≠ c' u) := by
  intro fuel
  induction fuel with
  | zero =>
      intro queue colors c' _ _ _ h
      rw [bfsLoop] at h
      exact absurd h (by simp)
  | succ fuel ih =>
      intro queue colors c' hq hA1 hA3 h
      cases queue with
      | nil =>
          rw [bfsLoop] at h
          injection h with h1
          injection h1 with h2
          subst h2
          refine ⟨fun v _ => rfl, hA1, ?_⟩
          intro u hun hcol nb hnb
          exact hA3 u hun hcol (List.not_mem_nil u) nb hnb
      | cons cur rest =>
          rw [bfsLoop] at h
          cases hpn : processNbrs colors rest cur (adj cur) with
          | none => rw [hpn] at h; exact absurd h (by simp)
          | some res =>
              rw [hpn] at h
              obtain ⟨_, hq', hA1', hA3', hext, _⟩ :=
                bfs_state_step n adj cur rest colors res hq hA1 hA3 hpn (hadj cur)
              obtain ⟨e2, v2, a2⟩ := ih res.2 res.1 c' hq' hA1' hA3' h
              refine ⟨?_, v2, a2⟩
              intro v hv
              have h1 := hext v hv
              rw [e2 v (by rw [h1]; exact hv), h1]

/-- The BFS loop never exhausts a fuel that strictly dominates its
measure. -/
theorem bfsLoop_fuel (n : Nat) (adj : Nat → List Nat)
    (hadj : ∀ u, ∀ v ∈ adj u, v < n) :
    ∀ (fuel : Nat) (queue : List Nat) (colors : Nat → Int),
      (∀ v ∈ queue, colors v = 0 ∨ colors v = 1) →
      (∀ v, colors v = -1 ∨ colors v = 0 ∨ colors v = 1) →
      (∀ u, u < n → colors u ≠ -1 → u ∉ queue →
        ∀ nb ∈ adj u, colors nb ≠ -1 ∧ colors nb ≠ colors u) →
      2 * uncolored n colors + queue.length < fuel →
      bfsLoop adj fuel queue colors ≠ none := by
  intro fuel
  induction fuel with
  | zero => intro queue colors _ _ _ hlt; omega
  | succ fuel ih =>
      intro queue colors hq hA1 hA3 hlt
      cases queue with
      | nil => rw [bfsLoop]; simp
      | cons cur rest =>
          rw [bfsLoop]
          cases hpn : processNbrs colors rest cur (adj cur) with
          | none => simp
          | some res =>
              obtain ⟨hm, hq', hA1', hA3', _, _⟩ :=
                bfs_state_step n adj cur rest colors res hq hA1 hA3 hpn (hadj cur)
              have hlen : (cur :: rest).length = rest.length + 1 := rfl
              exact ih res.2 res.1 hq' hA1' hA3' (by omega)

/-! ### Proper 2-coloring: walks and the parity argument -/

/-- Concatenation of walks adds lengths. -/
theorem walkPar_append (adj : Nat → List Nat) :
    ∀ {u v x L M : Nat}, WalkPar adj u v L → WalkPar adj v x M →
      WalkPar adj u x (L + M) := by
  intro u v x L M h1
  induction h1 with
  | nil u => intro h2; simpa using h2
  | cons h hw ih =>
      intro h2
      have h4 := WalkPar.cons h (ih h2)
      have heq : ∀ {L M : Nat}, L + M + 1 = L + 1 + M := by omega
      exact heq ▸ h4

/-- In a symmetric adjacency, walks reverse with the same length. -/
theorem walkPar_symm (adj : Nat → List Nat)
    (hsym : ∀ u v, v ∈ adj u → u ∈ adj v) :
    ∀ {u v L : Nat}, WalkPar adj u v L → WalkPar adj v u L := by
  intro u v L h
  induction h with
  | nil u => exact WalkPar.nil u
  | cons h hw ih =>
      exact walkPar_append adj ih (WalkPar.cons (hsym _ _ h) (WalkPar.nil _))

/-- Along a walk in a properly 2-colored adjacency, equal colors are the
same as even length. -/
theorem walkPar_parity (adj : Nat → List Nat) (f : Nat → Bool)
    (hf : ∀ u v, v ∈ adj u → f u ≠ f v) :
    ∀ {u v L : Nat}, WalkPar adj u v L → (f u = f v ↔ Even L) := by
  intro u v L h
  induction h with
  | nil u => simp
  | cons h hw ih =>
      rename_i u' w' v' L'
      have hne := hf u' w' h
      constructor
      · intro heq
        rw [Nat.even_add_one]
        intro hev
        have := ih.mpr hev
        rw [← this] at heq
        exact hne heq
      · intro hev
        rw [Nat.even_add_one] at hev
        by_contra hne2
        have : f w' = f v' := by
          cases hfu : f u' <;> cases hfw : f w' <;> cases hfv : f v' <;>
            simp_all
        exact hev (ih.mp this)

/-- Completeness of the BFS loop: a same-color conflict yields a closed
walk of odd length through the component's seed `s`, because every queued
vertex carries the parity of some walk to `s` and a conflict equates two
colors of opposite parity across one extra edge. -/
theorem bfsLoop_conflict (n : Nat) (adj : Nat → List Nat)
    (hadj : ∀ u, ∀ v ∈ adj u, v < n)
    (hsym : ∀ u v, v ∈ adj u → u ∈ adj v) (s : Nat) :
    ∀ (fuel : Nat) (queue : List Nat) (colors : Nat → Int),
      (∀ v ∈ queue, colors v = 0 ∨ colors v = 1) →
      (∀ v, colors v = -1 ∨ colors v = 0 ∨ colors v = 1) →
      (∀ u, u < n → colors u ≠ -1 → u ∉ queue →
        ∀ nb ∈ adj u, colors nb ≠ -1 ∧ colors nb ≠ colors u) →
      (∀ v ∈ queue, ∃ L, WalkPar adj v s L ∧
        colors v = if Even L then 0 else 1) →
      bfsLoop adj fuel queue colors = some none →
      ∃ L, WalkPar adj s s L ∧ ¬ Even L := by
  intro fuel
  induction fuel with
  | zero =>
      intro queue colors _ _ _ _ h
      rw [bfsLoop] at h
      exact absurd h (by simp)
  | succ fuel ih =>
      intro queue colors hq hA1 hA3 hwq h
      cases queue with
      | nil =>
          rw [bfsLoop] at h
          exact absurd h (by simp)
      | cons cur rest =>
          rw [bfsLoop] at h
          cases hpn : processNbrs colors rest cur (adj cur) with
          | none =>
              have hcur : colors cur = 0 ∨ colors cur = 1 :=
                hq cur (List.mem_cons_self cur rest)
              obtain ⟨nb, hmem, hval⟩ :=
                processNbrs_none_spec cur (adj cur) colors rest hcur hpn
              have hnbn : nb < n := hadj cur nb hmem
              have hnbcol : colors nb ≠ -1 := by
                rw [hval]; rcases hcur with h0 | h0 <;> rw [h0] <;> decide
              have hnbq : nb ∈ cur :: rest := by
                by_contra hnot
                have := (hA3 nb hnbn hnbcol hnot cur (hsym cur nb hmem)).2
                exact this hval.symm
              obtain ⟨L1, w1, hc1⟩ := hwq cur (List.mem_cons_self cur rest)
              obtain ⟨L2, w2, hc2⟩ := hwq nb hnbq
              have hpar : Even L1 ↔ Even L2 := by
                rw [hval, hc1] at hc2
                by_cases he1 : Even L1 <;> by_cases he2 : Even L2
                · exact iff_of_true he1 he2
                · rw [if_pos he1, if_neg he2] at hc2; exact absurd hc2 (by decide)
                · rw [if_neg he1, if_pos he2] at hc2; exact absurd hc2 (by decide)
                · exact iff_of_false he1 he2
              refine ⟨L1 + (L2 + 1), walkPar_append adj (walkPar_symm adj hsym w1)
                (WalkPar.cons hmem w2), ?_⟩
              intro hev
              rw [Nat.even_add, Nat.even_add_one] at hev
              tauto
          | some res =>
              rw [hpn] at h
              have hcur : colors cur = 0 ∨ colors cur = 1 :=
                hq cur (List.mem_cons_self cur rest)
              obtain ⟨_, hq', hA1', hA3', hext, newq, hqeq, hprops⟩ :=
                bfs_state_step n adj cur rest colors res hq hA1 hA3 hpn (hadj cur)
              obtain ⟨L1, w1, hc1⟩ := hwq cur (List.mem_cons_self cur rest)
              refine ih res.2 res.1 hq' hA1' hA3' ?_ h
              intro v hv
              rw [hqeq] at hv
              rcases List.mem_append.mp hv with hvr | hvn
              · obtain ⟨L, w, hc⟩ := hwq v (List.mem_cons_of_mem _ hvr)
                have hne : colors v ≠ -1 := by
                  have := hq v (List.mem_cons_of_mem _ hvr)
                  rcases this with h0 | h0 <;> rw [h0] <;> decide
                exact ⟨L, w, by rw [hext v hne]; exact hc⟩
              · obtain ⟨hvadj, hvm1, hvval⟩ := hprops v hvn
                refine ⟨L1 + 1, WalkPar.cons (hsym cur v hvadj) w1, ?_⟩
                rw [hvval, hc1]
                by_cases hL : Even L1
                · rw [if_pos hL,
                    if_neg (by rw [Nat.even_add_one]; exact fun hc => hc hL)]
                  norm_num
                · rw [if_neg hL, if_pos (by rw [Nat.even_add_one]; exact hL)]
                  norm_num

/-- Seeding an uncolored vertex with color 0 re-establishes all BFS
invariants, because between components no colored vertex has an uncolored
neighbor. -/
theorem seed_invariants (n : Nat) (adj : Nat → List Nat) (i : Nat)
    (colors : Nat → Int)
    (hA1 : ∀ v, colors v = -1 ∨ colors v = 0 ∨ colors v = 1)
    (hP3 : ∀ u, u < n → colors u ≠ -1 →
      ∀ nb ∈ adj u, colors nb ≠ -1 ∧ colors nb ≠ colors u)
    (hi : colors i = -1) :
    (∀ v ∈ [i], Function.update colors i 0 v = 0 ∨
      Function.update colors i 0 v = 1) ∧
    (∀ v, Function.update colors i 0 v = -1 ∨
      Function.update colors i 0 v = 0 ∨ Function.update colors i 0 v = 1) ∧
    (∀ u, u < n → Function.update colors i 0 u ≠ -1 → u ∉ [i] →
      ∀ nb ∈ adj u, Function.update colors i 0 nb ≠ -1 ∧
        Function.update colors i 0 nb ≠ Function.update colors i 0 u) := by
  refine ⟨?_, ?_, ?_⟩
  · intro v hv
    have hvi : v = i := by simpa using hv
    rw [hvi, Function.update_same]
    exact Or.inl rfl
  · intro v
    by_cases hvi : v = i
    · rw [hvi, Function.update_same]; exact Or.inr (Or.inl rfl)
    · rw [Function.update_noteq hvi]; exact hA1 v
  · intro u hun hcol hnotq nb hnb
    have hui : u ≠ i := by simpa using hnotq
    have hue : Function.update colors i 0 u = colors u :=
      Function.update_noteq hui _ _
    rw [hue] at hcol ⊢
    obtain ⟨hnb1, hnb2⟩ := hP3 u hun hcol nb hnb
    have hnbi : nb ≠ i := fun he => hnb1 (by rw [← he] at hi; exact hi)
    rw [Function.update_noteq hnbi]
    exact ⟨hnb1, hnb2⟩

/-- Soundness of the outer loop: on success every vertex is colored 0 or
1 and every colored vertex has a conflict-free neighborhood. -/
theorem colorOuter_sound (n : Nat) (adj : Nat → List Nat)
    (hadj : ∀ u, ∀ v ∈ adj u, v < n) :
    ∀ (fuel i : Nat) (colors c' : Nat → Int),
      fuel + i = n →
      (∀ v, colors v = -1 ∨ colors v = 0 ∨ colors v = 1) →
      (∀ u, u < n → colors u ≠ -1 →
        ∀ nb ∈ adj u, colors nb ≠ -1 ∧ colors nb ≠ colors u) →
      (∀ j, j < i → colors j ≠ -1) →
      colorOuter n adj fuel i colors = some (some c') →
      (∀ j, j < n → c' j = 0 ∨ c' j = 1) ∧
      (∀ u, u < n → c' u ≠ -1 →
        ∀ nb ∈ adj u, c' nb ≠ -1 ∧ c' nb ≠ c' u) := by
  intro fuel
  induction fuel with
  | zero =>
      intro i colors c' hin hA1 hP3 hpre h
      rw [colorOuter] at h
      injection h with h1
      injection h1 with h2
      subst h2
      refine ⟨?_, hP3⟩
      intro j hj
      have hji : j < i := by omega
      rcases hA1 j with h0 | h0
      · exact absurd h0 (hpre j hji)
      · exact h0
  | succ fuel ih =>
      intro i colors c' hin hA1 hP3 hpre h
      rw [colorOuter] at h
      by_cases hi : colors i = -1
      · rw [if_pos hi] at h
        obtain ⟨hqb, hA1b, hA3b⟩ := seed_invariants n adj i colors hA1 hP3 hi
        cases hbfs : bfsLoop adj (2 * n + 2) [i] (Function.update colors i 0) with
        | none => rw [hbfs] at h; exact absurd h (by simp)
        | some o =>
            cases o with
            | none => rw [hbfs] at h; exact absurd h (by simp)
            | some cs1 =>
                rw [hbfs] at h
                obtain ⟨hext1, hA1', hP3'⟩ :=
                  bfsLoop_sound n adj hadj (2 * n + 2) [i]
                    (Function.update colors i 0) cs1 hqb hA1b hA3b hbfs
                have hP3'' : ∀ u, u < n → cs1 u ≠ -1 →
                    ∀ nb ∈ adj u, cs1 nb ≠ -1 ∧ cs1 nb ≠ cs1 u := hP3'
                have hpre' : ∀ j, j < i + 1 → cs1 j ≠ -1 := by
                  intro j hj
                  by_cases hji : j = i
                  · have h0 : Function.update colors i 0 j = 0 := by
                      rw [hji]; exact Function.update_same i 0 colors
                    rw [hext1 j (by rw [h0]; decide), h0]; decide
                  · have hne := hpre j (by omega)
                    have heq : Function.update colors i 0 j = colors j :=
                      Function.update_noteq hji _ _
                    rw [hext1 j (by rw [heq]; exact hne), heq]
                    exact hne
                exact ih (i + 1) cs1 c' (by omega) hA1' hP3'' hpre' h
      · rw [if_neg hi] at h
        have hpre' : ∀ j, j < i + 1 → colors j ≠ -1 := by
          intro j hj
          by_cases hji : j = i
          · rw [hji]; exact hi
          · exact hpre j (by omega)
        exact ih (i + 1) colors c' (by omega) hA1 hP3 hpre' h

/-- Completeness of the outer loop: the `[]`-sentinel exit produces a
closed walk of odd length. -/
theorem colorOuter_conflict (n : Nat) (adj : Nat → List Nat)
    (hadj : ∀ u, ∀ v ∈ adj u, v < n)
    (hsym : ∀ u v, v ∈ adj u → u ∈ adj v) :
    ∀ (fuel i : Nat) (colors : Nat → Int),
      (∀ v, colors v = -1 ∨ colors v = 0 ∨ colors v = 1) →
      (∀ u, u < n → colors u ≠ -1 →
        ∀ nb ∈ adj u, colors nb ≠ -1 ∧ colors nb ≠ colors u) →
      colorOuter n adj fuel i colors = some none →
      ∃ a L, WalkPar adj a a L ∧ ¬ Even L := by
  intro fuel
  induction fuel with
  | zero =>
      intro i colors _ _ h
      rw [colorOuter] at h
      exact absurd h (by simp)
  | succ fuel ih =>
      intro i colors hA1 hP3 h
      rw [colorOuter] at h
      by_cases hi : colors i = -1
      · rw [if_pos hi] at h
        obtain ⟨hqb, hA1b, hA3b⟩ := seed_invariants n adj i colors hA1 hP3 hi
        cases hbfs : bfsLoop adj (2 * n + 2) [i] (Function.update colors i 0) with
        | none => rw [hbfs] at h; exact absurd h (by simp)
        | some o =>
            cases o with
            | none =>
                have hwq : ∀ v ∈ [i], ∃ L, WalkPar adj v i L ∧
                    Function.update colors i 0 v = if Even L then 0 else 1 := by
                  intro v hv
                  have hvi : v = i := by simpa using hv
                  refine ⟨0, by rw [hvi]; exact WalkPar.nil i, ?_⟩
                  rw [hvi, Function.update_same, if_pos (even_zero)]
                obtain ⟨L, w, hodd⟩ :=
                  bfsLoop_conflict n adj hadj hsym i (2 * n + 2) [i]
                    (Function.update colors i 0) hqb hA1b hA3b hwq hbfs
                exact ⟨i, L, w, hodd⟩
            | some cs1 =>
                rw [hbfs] at h
                obtain ⟨hext1, hA1', hP3'⟩ :=
                  bfsLoop_sound n adj hadj (2 * n + 2) [i]
                    (Function.update colors i 0) cs1 hqb hA1b hA3b hbfs
                exact ih (i + 1) cs1 hA1' hP3' h
      · rw [if_neg hi] at h
        exact ih (i + 1) colors hA1 hP3 h

/-- The outer loop never exhausts the BFS fuel: `2 * n + 2` strictly
dominates the BFS measure of every seeded queue. -/
theorem colorOuter_no_exhaust (n : Nat) (adj : Nat → List Nat)
    (hadj : ∀ u, ∀ v ∈ adj u, v < n) :
    ∀ (fuel i : Nat) (colors : Nat → Int),
      (∀ v, colors v = -1 ∨ colors v = 0 ∨ colors v = 1) →
      (∀ u, u < n → colors u ≠ -1 →
        ∀ nb ∈ adj u, colors nb ≠ -1 ∧ colors nb ≠ colors u) →
      colorOuter n adj fuel i colors ≠ none := by
  intro fuel
  induction fuel with
  | zero => intro i colors _ _; rw [colorOuter]; simp
  | succ fuel ih =>
      intro i colors hA1 hP3
      rw [colorOuter]
      by_cases hi : colors i = -1
      · rw [if_pos hi]
        obtain ⟨hqb, hA1b, hA3b⟩ := seed_invariants n adj i colors hA1 hP3 hi
        cases hbfs : bfsLoop adj (2 * n + 2) [i] (Function.update colors i 0) with
        | none =>
            have hcard : uncolored n (Function.update colors i 0) ≤ n := by
              rw [uncolored]
              calc ((Finset.range n).filter
                    fun v => Function.update colors i 0 v = -1).card
                  ≤ (Finset.range n).card := Finset.card_filter_le _ _
                _ = n := Finset.card_range n
            exact absurd hbfs
              (bfsLoop_fuel n adj hadj (2 * n + 2) [i]
                (Function.update colors i 0) hqb hA1b hA3b
                (by simp only [List.length_singleton]; omega))
        | some o =>
            cases o with
            | none => simp
            | some cs1 =>
                obtain ⟨hext1, hA1', hP3'⟩ :=
                  bfsLoop_sound n adj hadj (2 * n + 2) [i]
                    (Function.update colors i 0) cs1 hqb hA1b hA3b hbfs
                exact ih (i + 1) cs1 hA1' hP3'
      · rw [if_neg hi]
        exact ih (i + 1) colors hA1 hP3

/-! ### Proper 2-coloring: payload-level adjacency -/

/-- Membership in the adjacency list after one valid edge `[a, b]`. -/
theorem addEdge_mem_valid (n : Nat) (g : Nat → List Nat) (a b : Nat)
    (ha : a < n) (hb : b < n) (u v : Nat) :
    (v ∈ addEdge n g (a : Int) (b : Int) u ↔
      v ∈ g u ∨ (u = a ∧ v = b) ∨ (u = b ∧ v = a)) := by
  rw [addEdge, if_pos]
  · simp only [Int.toNat_natCast, Function.update_apply]
    split_ifs with h1 h2 h3 <;> subst_vars <;> constructor <;> intro h <;>
      (try simp only [List.mem_append, List.mem_singleton] at h ⊢) <;> tauto
  · refine ⟨Int.natCast_nonneg a, ?_, Int.natCast_nonneg b, ?_⟩
    · exact_mod_cast ha
    · exact_mod_cast hb

/-- Membership in the payload-built adjacency is exactly incidence with
some listed edge. -/
theorem payloadAdj_mem (n : Nat) (edges : List (Nat × Nat))
    (hwf : ∀ e ∈ edges, e.1 < n ∧ e.2 < n) (u v : Nat) :
    (v ∈ payloadAdj n edges u ↔
      ∃ e ∈ edges, (u = e.1 ∧ v = e.2) ∨ (u = e.2 ∧ v = e.1)) := by
  have key : ∀ (es : List (Nat × Nat)) (g : Nat → List Nat),
      (∀ e ∈ es, e.1 < n ∧ e.2 < n) →
      (v ∈ buildAdj n (es.map fun e => .arr [.num (e.1 : Int), .num (e.2 : Int)]) g u ↔
        v ∈ g u ∨ ∃ e ∈ es, (u = e.1 ∧ v = e.2) ∨ (u = e.2 ∧ v = e.1)) := by
    intro es
    induction es with
    | nil => intro g _; simp [buildAdj]
    | cons e rest ih =>
        intro g hb
        have he := hb e (List.mem_cons_self e rest)
        rw [List.map_cons, buildAdj]
        have hstep : edgeStep n g (.arr [.num (e.1 : Int), .num (e.2 : Int)]) =
            addEdge n g (e.1 : Int) (e.2 : Int) := rfl
        rw [hstep, ih (addEdge n g (e.1 : Int) (e.2 : Int))
          (fun e' h' => hb e' (List.mem_cons_of_mem _ h')),
          addEdge_mem_valid n g e.1 e.2 he.1 he.2 u v]
        constructor
        · rintro ((hv | hv) | ⟨e', he', hv⟩)
          · exact Or.inl hv
          · exact Or.inr ⟨e, List.mem_cons_self e rest, hv⟩
          · exact Or.inr ⟨e', List.mem_cons_of_mem _ he', hv⟩
        · rintro (hv | ⟨e', he', hv⟩)
          · exact Or.inl (Or.inl hv)
          · rcases List.mem_cons.mp he' with heq | hmem
            · exact Or.inl (Or.inr (heq ▸ hv))
            · exact Or.inr ⟨e', hmem, hv⟩
  have h0 := key edges (fun _ => []) hwf
  rw [payloadAdj]
  rw [h0]
  simp

/-- The payload adjacency stays below the vertex count. -/
theorem payloadAdj_lt (n : Nat) (edges : List (Nat × Nat))
    (hwf : ∀ e ∈ edges, e.1 < n ∧ e.2 < n) :
    ∀ u, ∀ v ∈ payloadAdj n edges u, v < n := by
  intro u v hv
  obtain ⟨e, he, hm⟩ := (payloadAdj_mem n edges hwf u v).mp hv
  obtain ⟨h1, h2⟩ := hwf e he
  rcases hm with ⟨_, rfl⟩ | ⟨_, rfl⟩
  · exact h2
  · exact h1

/-- The payload adjacency is symmetric. -/
theorem payloadAdj_symm (n : Nat) (edges : List (Nat × Nat))
    (hwf : ∀ e ∈ edges, e.1 < n ∧ e.2 < n) :
    ∀ u v, v ∈ payloadAdj n edges u → u ∈ payloadAdj n edges v := by
  intro u v hv
  obtain ⟨e, he, hm⟩ := (payloadAdj_mem n edges hwf u v).mp hv
  refine (payloadAdj_mem n edges hwf v u).mpr ⟨e, he, ?_⟩
  rcases hm with ⟨h1, h2⟩ | ⟨h1, h2⟩
  · exact Or.inr ⟨h2, h1⟩
  · exact Or.inl ⟨h2, h1⟩

/-- Each listed edge is present in the payload adjacency. -/
theorem payloadAdj_edge (n : Nat) (edges : List (Nat × Nat))
    (hwf : ∀ e ∈ edges, e.1 < n ∧ e.2 < n) :
    ∀ e ∈ edges, e.2 ∈ payloadAdj n edges e.1 :=
  fun e he => (payloadAdj_mem n edges hwf e.1 e.2).mpr
    ⟨e, he, Or.inl ⟨rfl, rfl⟩⟩

/-- Reduction of the solver on a well-shaped payload. -/
theorem solve_payload_eq (n : Nat) (edges : List (Nat × Nat)) :
    solveProper2ColoringGraph (edgesPayload n edges) =
      match colorOuter n (payloadAdj n edges) n 0 (fun _ => -1) with
      | none => .ok []
      | some none => .ok []
      | some (some colors) => .ok ((List.range n).map colors) := by
  have h0 : ¬ ((n : Int) < 0) := by omega
  simp only [solveProper2ColoringGraph, edgesPayload, if_neg h0,
    Int.toNat_natCast]
  rfl

/-- C7: for every well-formed payload `[n, edges]` with all edge endpoints
in `0..n-1`, solveProper2ColoringGraph returns `[]` when the graph admits
no proper 2-coloring, and otherwise returns a length-`n` array of colors
in `{0, 1}` in which the endpoints of every edge receive different
colors; in particular `(4, [[0,2],[0,3],[1,2],[1,3]])` yields
`[0, 0, 1, 1]` and `(3, [[0,1],[0,2],[1,2]])` yields `[]`. -/
theorem c7_proper2Coloring_correct (n : Nat) (edges : List (Nat × Nat))
    (hwf : ∀ e ∈ edges, e.1 < n ∧ e.2 < n) :
    (¬ TwoColorable edges →
      solveProper2ColoringGraph (edgesPayload n edges) = .ok []) ∧
    (TwoColorable edges →
      ∃ cs : List Int,
        solveProper2ColoringGraph (edgesPayload n edges) = .ok cs ∧
        cs.length = n ∧ (∀ c ∈ cs, c = 0 ∨ c = 1) ∧
        ∀ e ∈ edges, cs.get? e.1 ≠ cs.get? e.2) ∧
    solveProper2ColoringGraph (edgesPayload 4 [(0, 2), (0, 3), (1, 2), (1, 3)]) =
      .ok [0, 0, 1, 1] ∧
    solveProper2ColoringGraph (edgesPayload 3 [(0, 1), (0, 2), (1, 2)]) =
      .ok [] := by
  have hadj := payloadAdj_lt n edges hwf
  have hsym := payloadAdj_symm n edges hwf
  refine ⟨?_, ?_, by rfl, by rfl⟩
  · intro hno
    rw [solve_payload_eq]
    cases ho : colorOuter n (payloadAdj n edges) n 0 (fun _ => -1) with
    | none => rfl
    | some o =>
        cases o with
        | none => rfl
        | some c' =>
            exfalso
            obtain ⟨hvals, hP3⟩ :=
              colorOuter_sound n (payloadAdj n edges) hadj n 0 (fun _ => -1) c'
                (by omega) (fun v => Or.inl rfl) (fun u _ h => absurd rfl h)
                (fun j hj => absurd hj (Nat.not_lt_zero j)) ho
            refine hno ⟨fun v => decide (c' v = 1), ?_⟩
            intro e he
            have h1 := hwf e he
            have hedge := payloadAdj_edge n edges hwf e he
            have hne := (hP3 e.1 h1.1
              (by rcases hvals e.1 h1.1 with h0 | h0 <;> rw [h0] <;> decide)
              e.2 hedge).2
            show decide (c' e.1 = 1) ≠ decide (c' e.2 = 1)
            rcases hvals e.1 h1.1 with h01 | h01 <;>
              rcases hvals e.2 h1.2 with h02 | h02
            · rw [h01, h02] at hne; exact absurd rfl hne
            · rw [h01, h02]; decide
            · rw [h01, h02]; decide
            · rw [h01, h02] at hne; exact absurd rfl hne
  · rintro ⟨f, hf⟩
    have hfadj : ∀ u v, v ∈ payloadAdj n edges u → f u ≠ f v := by
      intro u v hv
      obtain ⟨e, he, hm⟩ := (payloadAdj_mem n edges hwf u v).mp hv
      rcases hm with ⟨h1, h2⟩ | ⟨h1, h2⟩
      · rw [h1, h2]; exact hf e he
      · rw [h1, h2]; exact fun hc => hf e he hc.symm
    rw [solve_payload_eq]
    cases ho : colorOuter n (payloadAdj n edges) n 0 (fun _ => -1) with
    | none =>
        exact absurd ho
          (colorOuter_no_exhaust n (payloadAdj n edges) hadj n 0 (fun _ => -1)
            (fun v => Or.inl rfl) (fun u _ h => absurd rfl h))
    | some o =>
        cases o with
        | none =>
            exfalso
            obtain ⟨a, L, w, hodd⟩ :=
              colorOuter_conflict n (payloadAdj n edges) hadj hsym n 0
                (fun _ => -1) (fun v => Or.inl rfl)
                (fun u _ h => absurd rfl h) ho
            exact hodd ((walkPar_parity (payloadAdj n edges) f hfadj w).mp rfl)
        | some c' =>
            obtain ⟨hvals, hP3⟩ :=
              colorOuter_sound n (payloadAdj n edges) hadj n 0 (fun _ => -1) c'
                (by omega) (fun v => Or.inl rfl) (fun u _ h => absurd rfl h)
                (fun j hj => absurd hj (Nat.not_lt_zero j)) ho
            refine ⟨(List.range n).map c', rfl, by simp, ?_, ?_⟩
            · intro c hc
              obtain ⟨j, hj, rfl⟩ := List.mem_map.mp hc
              exact hvals j (List.mem_range.mp hj)
            · intro e he
              have h1 := hwf e he
              have hedge := payloadAdj_edge n edges hwf e he
              have hcol := (hP3 e.1 h1.1
                (by rcases hvals e.1 h1.1 with h0 | h0 <;> rw [h0] <;> decide)
                e.2 hedge).2
              have hg1 : ((List.range n).map c').get? e.1 = some (c' e.1) := by
                rw [List.get?_map, List.get?_range h1.1]; rfl
              have hg2 : ((List.range n).map c').get? e.2 = some (c' e.2) := by
                rw [List.get?_map, List.get?_range h1.2]; rfl
              rw [hg1, hg2]
              intro hc
              injection hc with hc2
              exact hcol hc2.symm

/-- Witness for C7 at the concrete bipartite instance of the claim. -/
theorem c7_proper2Coloring_witness :
    (∀ e ∈ [((0 : Nat), (2 : Nat)), (0, 3), (1, 2), (1, 3)],
      e.1 < 4 ∧ e.2 < 4) ∧
    solveProper2ColoringGraph
      (edgesPayload 4 [(0, 2), (0, 3), (1, 2), (1, 3)]) = .ok [0, 0, 1, 1] :=
  ⟨by decide,
    (c7_proper2Coloring_correct 4 [(0, 2), (0, 3), (1, 2), (1, 3)]
      (by decide)).2.2.1⟩

/-! ### LZ compression: properties of the scans -/

/-- The greedy scan extends at most `fuel` times. -/
theorem matchLenGo_le (s : List Nat) (i off : Nat) :
    ∀ (fuel m : Nat), matchLenGo s i off m fuel ≤ m + fuel := by
  intro fuel
  induction fuel with
  | zero => intro m; rw [matchLenGo]; omega
  | succ fuel ih =>
      intro m
      rw [matchLenGo]
      split
      · have := ih (m + 1); omega
      · omega

/-- The greedy scan never shrinks. -/
theorem matchLenGo_ge (s : List Nat) (i off : Nat) :
    ∀ (fuel m : Nat), m ≤ matchLenGo s i off m fuel := by
  intro fuel
  induction fuel with
  | zero => intro m; rw [matchLenGo]
  | succ fuel ih =>
      intro m
      rw [matchLenGo]
      split
      · have := ih (m + 1); omega
      · omega

/-- Every position below the greedy scan's result matches. -/
theorem matchLenGo_match (s : List Nat) (i off : Nat) :
    ∀ (fuel m k : Nat), m ≤ k → k < matchLenGo s i off m fuel →
      i + k < s.length ∧ s.getD (i + k) 0 = s.getD (i + k - off) 0 := by
  intro fuel
  induction fuel with
  | zero =>
      intro m k hmk hk
      rw [matchLenGo] at hk
      omega
  | succ fuel ih =>
      intro m k hmk hk
      rw [matchLenGo] at hk
      by_cases hc : i + m < s.length ∧ s.getD (i + m) 0 = s.getD (i + m - off) 0
      · rw [if_pos hc] at hk
        by_cases hkm : k = m
        · rw [hkm]; exact hc
        · exact ih (m + 1) k (by omega) hk
      · rw [if_neg hc] at hk
        omega

/-- The greedy scan stops only at the cap or at a mismatch. -/
theorem matchLenGo_stop (s : List Nat) (i off : Nat) :
    ∀ (fuel m : Nat), matchLenGo s i off m fuel < m + fuel →
      ¬(i + matchLenGo s i off m fuel < s.length ∧
        s.getD (i + matchLenGo s i off m fuel) 0 =
          s.getD (i + matchLenGo s i off m fuel - off) 0) := by
  intro fuel
  induction fuel with
  | zero =>
      intro m hlt
      rw [matchLenGo] at hlt
      omega
  | succ fuel ih =>
      intro m hlt
      by_cases hc : i + m < s.length ∧ s.getD (i + m) 0 = s.getD (i + m - off) 0
      · rw [matchLenGo, if_pos hc] at hlt ⊢
        exact ih (m + 1) (by omega)
      · rw [matchLenGo, if_neg hc] at hlt ⊢
        exact hc

/-- A full-cap match is the same as a character-by-character match. -/
theorem matchLen_eq_iff (s : List Nat) (i off len : Nat) :
    len ≤ matchLen s i off len ↔
      ∀ k < len, i + k < s.length ∧
        s.getD (i + k) 0 = s.getD (i + k - off) 0 := by
  constructor
  · intro h k hk
    rw [matchLen] at h
    exact matchLenGo_match s i off len 0 k (Nat.zero_le k) (by omega)
  · intro h
    by_contra hlt
    have hlt2 : matchLen s i off len < 0 + len := by
      rw [matchLen] at hlt ⊢; omega
    have hstop := matchLenGo_stop s i off len 0 hlt2
    exact hstop (h (matchLenGo s i off 0 len) (by rw [matchLen] at hlt; omega))

/-- The capped-at-9 scan starts exactly when the first characters
agree. -/
theorem matchLen9_first (s : List Nat) (i off : Nat) (h : i < s.length) :
    1 ≤ matchLen s i off 9 ↔ s.getD i 0 = s.getD (i - off) 0 := by
  constructor
  · intro h1
    have := matchLenGo_match s i off 9 0 0 (Nat.zero_le 0) (by rw [matchLen] at h1; omega)
    simpa using this.2
  · intro heq
    by_contra h1
    have h0 : matchLen s i off 9 = 0 := by omega
    have hstop := matchLenGo_stop s i off 9 0 (by rw [matchLen] at h0; omega)
    rw [matchLen] at h0
    rw [h0] at hstop
    refine hstop ⟨by omega, by simpa using heq⟩

/-- The offset loop of the type-1 scan as an existential. -/
theorem canReference_iff (s : List Nat) (i len : Nat) :
    canReference s i len = true ↔
      ∃ o, 1 ≤ o ∧ o ≤ min i 9 ∧ ∀ k < len, i + k < s.length ∧
        s.getD (i + k) 0 = s.getD (i + k - o) 0 := by
  rw [canReference, List.any_eq_true]
  constructor
  · rintro ⟨o, ho, hle⟩
    have hom := List.mem_range.mp ho
    refine ⟨o + 1, by omega, by omega, ?_⟩
    exact (matchLen_eq_iff s i (o + 1) len).mp (by simpa using hle)
  · rintro ⟨o, ho1, ho2, hmatch⟩
    refine ⟨o - 1, List.mem_range.mpr (by omega), ?_⟩
    have hoo : o - 1 + 1 = o := by omega
    rw [hoo]
    simpa using (matchLen_eq_iff s i o len).mpr hmatch

/-- Referencability is monotone downward in the length. -/
theorem canReference_mono (s : List Nat) (i : Nat) (len' len : Nat)
    (h2 : len' ≤ len) (hc : canReference s i len = true) :
    canReference s i len' = true := by
  rw [canReference_iff] at hc ⊢
  obtain ⟨o, ho1, ho2, hm⟩ := hc
  exact ⟨o, ho1, ho2, fun k hk => hm k (by omega)⟩

/-- The length scan stops immediately at a referencable length. -/
theorem maxLenGo_break (s : List Nat) (i len ml fuel : Nat)
    (hc : canReference s i len = true) :
    maxLenGo s i len ml (fuel + 1) = ml := by
  rw [maxLenGo, if_pos hc]

/-- Once a length is unreferencable, no later one is, and the scan runs
to the last length. -/
theorem maxLenGo_run (s : List Nat) (i : Nat) :
    ∀ (fuel len ml : Nat), canReference s i len = false →
      maxLenGo s i len ml (fuel + 1) = len + fuel := by
  intro fuel
  induction fuel with
  | zero =>
      intro len ml hc
      rw [maxLenGo, if_neg (by rw [hc]; simp), maxLenGo]
      omega
  | succ fuel ih =>
      intro len ml hc
      have hc2 : canReference s i (len + 1) = false := by
        cases h2 : canReference s i (len + 1) with
        | false => rfl
        | true =>
            have := canReference_mono s i len (len + 1) (by omega) h2
            rw [hc] at this
            exact absurd this (by simp)
      rw [maxLenGo, if_neg (by rw [hc]; simp), ih (len + 1) len hc2]
      omega

/-- `maxLength` collapses: 0 at a referencable position, otherwise all of
`min(9, remaining)`. -/
theorem maxLength_spec (s : List Nat) (i : Nat) (h : i < s.length) :
    maxLength s i =
      if canReference s i 1 = true then 0 else min 9 (s.length - i) := by
  have hK : 1 ≤ min 9 (s.length - i) := by omega
  obtain ⟨K', hK'⟩ : ∃ K', min 9 (s.length - i) = K' + 1 :=
    ⟨min 9 (s.length - i) - 1, by omega⟩
  rw [maxLength, hK']
  cases hc : canReference s i 1 with
  | true => rw [maxLenGo_break s i 1 0 K' hc]; simp
  | false =>
      rw [maxLenGo_run s i K' 1 0 hc]
      simp
      omega

/-- The offset loop's result dominates its seed and every scanned offset,
and is either the seed or one of the scanned matches. -/
theorem bestGo_spec (s : List Nat) (i : Nat) :
    ∀ (fuel off : Nat) (best : Nat × Nat),
      best.1 ≤ (bestGo s i off best fuel).1 ∧
      (∀ o, off ≤ o → o < off + fuel →
        matchLen s i o 9 ≤ (bestGo s i off best fuel).1) ∧
      (bestGo s i off best fuel = best ∨
        (off ≤ (bestGo s i off best fuel).2 ∧
          (bestGo s i off best fuel).2 < off + fuel ∧
          (bestGo s i off best fuel).1 =
            matchLen s i (bestGo s i off best fuel).2 9)) := by
  intro fuel
  induction fuel with
  | zero =>
      intro off best
      rw [bestGo]
      exact ⟨le_rfl, fun o h1 h2 => by omega, Or.inl rfl⟩
  | succ fuel ih =>
      intro off best
      rw [bestGo]
      by_cases hlt : best.1 < matchLen s i off 9
      · rw [if_pos hlt]
        obtain ⟨h1, h2, h3⟩ := ih (off + 1) (matchLen s i off 9, off)
        refine ⟨by omega, ?_, ?_⟩
        · intro o ho1 ho2
          by_cases hoo : o = off
          · rw [hoo]; exact h1
          · exact h2 o (by omega) (by omega)
        · rcases h3 with he | ⟨ho1, ho2, heq⟩
          · rw [he]
            refine Or.inr ⟨?_, ?_, ?_⟩
            · show off ≤ off; omega
            · show off < off + (fuel + 1); omega
            · show matchLen s i off 9 = matchLen s i off 9; rfl
          · exact Or.inr ⟨by omega, by omega, heq⟩
      · rw [if_neg hlt]
        obtain ⟨h1, h2, h3⟩ := ih (off + 1) best
        refine ⟨h1, ?_, ?_⟩
        · intro o ho1 ho2
          by_cases hoo : o = off
          · rw [hoo]; omega
          · exact h2 o (by omega) (by omega)
        · rcases h3 with he | ⟨ho1, ho2, heq⟩
          · exact Or.inl he
          · exact Or.inr ⟨by omega, by omega, heq⟩

/-- The best length is positive exactly when some offset matches the
first character. -/
theorem bestMatch_pos_iff (s : List Nat) (i : Nat) (h : i < s.length) :
    0 < (bestMatch s i).1 ↔ canReference s i 1 = true := by
  have hb : bestMatch s i = bestGo s i 1 (0, 0) (min i 9) := rfl
  obtain ⟨h1, h2, h3⟩ := bestGo_spec s i (min i 9) 1 (0, 0)
  rw [← hb] at h1 h2 h3
  constructor
  · intro hpos
    rcases h3 with he | ⟨ho1, ho2, heq⟩
    · rw [he] at hpos; exact absurd hpos (by decide)
    · rw [canReference_iff]
      refine ⟨(bestMatch s i).2, ho1, by omega, ?_⟩
      intro k hk
      have hk0 : k = 0 := by omega
      rw [hk0]
      have hml : 1 ≤ matchLen s i (bestMatch s i).2 9 := by omega
      have := (matchLen9_first s i (bestMatch s i).2 h).mp hml
      exact ⟨by omega, by simpa using this⟩
  · intro hc
    rw [canReference_iff] at hc
    obtain ⟨o, ho1, ho2, hm⟩ := hc
    have h0 := hm 0 (by omega)
    have hml : 1 ≤ matchLen s i o 9 :=
      (matchLen9_first s i o h).mpr (by simpa using h0.2)
    have := h2 o ho1 (by omega)
    omega

/-- A positive best match has a single-digit in-range offset, length at
most 9, fits in the input, and matches character by character. -/
theorem bestMatch_props (s : List Nat) (i : Nat) (_h : i < s.length)
    (hpos : 0 < (bestMatch s i).1) :
    1 ≤ (bestMatch s i).2 ∧ (bestMatch s i).2 ≤ min i 9 ∧
    (bestMatch s i).1 ≤ 9 ∧ i + (bestMatch s i).1 ≤ s.length ∧
    ∀ k < (bestMatch s i).1,
      s.getD (i + k) 0 = s.getD (i + k - (bestMatch s i).2) 0 := by
  have hb : bestMatch s i = bestGo s i 1 (0, 0) (min i 9) := rfl
  obtain ⟨h1, h2, h3⟩ := bestGo_spec s i (min i 9) 1 (0, 0)
  rw [← hb] at h1 h2 h3
  rcases h3 with he | ⟨ho1, ho2, heq⟩
  · rw [he] at hpos; exact absurd hpos (by decide)
  · have hle : matchLen s i (bestMatch s i).2 9 ≤ 9 := by
      have := matchLenGo_le s i (bestMatch s i).2 9 0
      rw [matchLen]; omega
    have hmm : ∀ k < (bestMatch s i).1, i + k < s.length ∧
        s.getD (i + k) 0 = s.getD (i + k - (bestMatch s i).2) 0 := by
      intro k hk
      rw [heq] at hk
      exact matchLenGo_match s i (bestMatch s i).2 9 0 k (Nat.zero_le k)
        (by rw [matchLen] at hk; omega)
    refine ⟨ho1, by omega, by omega, ?_, fun k hk => (hmm k hk).2⟩
    have := hmm ((bestMatch s i).1 - 1) (by omega)
    omega

/-! ### LZ decompression: the copy loops reproduce the source -/

/-- A digit character parses to its value. -/
theorem digitVal_digit (d : Nat) (hd : d ≤ 9) : digitVal? (48 + d) = some d := by
  rw [digitVal?, if_pos (by omega)]
  have : 48 + d - 48 = d := by omega
  rw [this]

/-- One step of the back-reference copy loop under the bounds check. -/
theorem copyRef_succ (o j : Nat) (res : JSStr) (h : 0 < o ∧ o ≤ res.length) :
    copyRef (some o) (j + 1) res =
      copyRef (some o) j (res ++ [res.get ⟨res.length - o, by omega⟩]) := by
  rw [copyRef]
  congr 1
  show (if h : 0 < o ∧ o ≤ res.length then
      res ++ [res.get ⟨res.length - o, by omega⟩] else res) = _
  rw [dif_pos h]

/-- The copy loop started on the first `m` characters of `s` with an
offset whose window matches reproduces the next `L` characters. -/
theorem copyRef_spec (s : List Nat) (o : Nat) :
    ∀ (L m : Nat), 0 < o → o ≤ m → m + L ≤ s.length →
      (∀ k < L, s.getD (m + k) 0 = s.getD (m + k - o) 0) →
      copyRef (some o) L (s.take m) = s.take (m + L) := by
  intro L
  induction L with
  | zero =>
      intro m _ _ _ _
      rw [copyRef]
      simp
  | succ L ih =>
      intro m ho hom hmL hmatch
      have hmn : m ≤ s.length := by omega
      have hmlen : (s.take m).length = m := by
        rw [List.length_take]; omega
      rw [copyRef_succ o L (s.take m) ⟨ho, by omega⟩]
      have hchar : (s.take m).get ⟨(s.take m).length - o, by omega⟩ =
          s.getD m 0 := by
        have hidx : (s.take m).length - o = m - o := by omega
        rw [List.get_eq_getElem, List.getElem_take]
        simp only [hidx]
        rw [List.getD_eq_getElem s 0 (show m < s.length by omega)]
        have h3 := hmatch 0 (by omega)
        rw [List.getD_eq_getElem s 0 (show m + 0 < s.length by omega),
          List.getD_eq_getElem s 0 (show m + 0 - o < s.length by omega)] at h3
        simp only [Nat.add_zero] at h3
        exact h3.symm
      rw [hchar]
      have htake : s.take m ++ [s.getD m 0] = s.take (m + 1) := by
        rw [List.take_succ, List.getElem?_eq_getElem (show m < s.length by omega),
          List.getD_eq_getElem s 0 (show m < s.length by omega)]
        rfl
      rw [htake]
      have hrec := ih (m + 1) ho (by omega) (by omega) (by
        intro k hk
        have hm2 := hmatch (k + 1) (by omega)
        have e1 : m + 1 + k = m + (k + 1) := by omega
        rw [e1]
        exact hm2)
      rw [hrec]
      congr 1
      omega

/-! ### LZ round trip -/

/-- The decompressor ignores fuel on an exhausted input. -/
theorem decompLoop_nil (fuel : Nat) (ty1 : Bool) (res : JSStr) :
    decompLoop fuel [] ty1 res = res := by
  cases fuel <;> rfl

/-- A '0' chunk flips the decompressor's mode. -/
theorem decompLoop_zero (fuel : Nat) (rest : List Nat) (ty1 : Bool)
    (res : JSStr) :
    decompLoop (fuel + 1) (48 :: rest) ty1 res =
      decompLoop fuel rest (!ty1) res := rfl

/-- A fitting literal chunk appends its characters. -/
theorem decompLoop_lit (fuel len : Nat) (hlen : 1 ≤ len) (hle : len ≤ 9)
    (rest : List Nat) (res : JSStr) (hfit : len ≤ rest.length) :
    decompLoop (fuel + 1) ((48 + len) :: rest) true res =
      decompLoop fuel (rest.drop len) false (res ++ rest.take len) := by
  obtain ⟨l', rfl⟩ : ∃ l', len = l' + 1 := ⟨len - 1, by omega⟩
  have hdig := digitVal_digit (l' + 1) (by omega)
  simp only [decompLoop, hdig]
  simp [hfit]

/-- A reference chunk runs the copy loop on the parsed offset. -/
theorem decompLoop_ref (fuel len : Nat) (hlen : 1 ≤ len) (hle : len ≤ 9)
    (och : Nat) (rest : List Nat) (res : JSStr) :
    decompLoop (fuel + 1) ((48 + len) :: och :: rest) false res =
      decompLoop fuel rest true (copyRef (digitVal? och) len res) := by
  obtain ⟨l', rfl⟩ : ∃ l', len = l' + 1 := ⟨len - 1, by omega⟩
  have hdig := digitVal_digit (l' + 1) (by omega)
  simp only [decompLoop, hdig]
  rfl

/-- The round trip of the chunk loops: decompressing the compression of
the unconsumed suffix, starting from the already reproduced prefix,
recovers the whole input.  The compression fuel bound is that loop's
measure; the decompression fuel dominates the compressed length. -/
theorem lz_roundtrip_loop (s : List Nat) :
    ∀ (fuel : Nat) (dfuel i : Nat) (ty1 : Bool),
      i ≤ s.length →
      2 * (s.length - i) + (if canReference s i 1 = ty1 then 1 else 0) < fuel →
      (compressLoop s fuel i ty1).length ≤ dfuel →
      decompLoop dfuel (compressLoop s fuel i ty1) ty1 (s.take i) = s := by
  intro fuel
  induction fuel with
  | zero => intro dfuel i ty1 hin hm; omega
  | succ fuel ih =>
      intro dfuel i ty1 hin hm hd
      by_cases hi : i < s.length
      · rw [compressLoop, if_pos hi] at hd ⊢
        cases ty1 with
        | true =>
            rw [if_pos rfl] at hd ⊢
            have hml := maxLength_spec s i hi
            cases hc : canReference s i 1 with
            | false =>
                rw [hc] at hml hm
                simp only [Bool.false_eq_true, if_false] at hml hm
                have hK1 : 1 ≤ maxLength s i := by rw [hml]; omega
                have hK9 : maxLength s i ≤ 9 := by rw [hml]; omega
                have hKn : i + maxLength s i ≤ s.length := by rw [hml]; omega
                rw [if_pos (by omega)] at hd ⊢
                have hchunklen : ((s.drop i).take (maxLength s i)).length =
                    maxLength s i := by
                  rw [List.length_take, List.length_drop]; omega
                have hlen1 : 1 ≤ ((48 + maxLength s i) ::
                    ((s.drop i).take (maxLength s i) ++
                      compressLoop s fuel (i + maxLength s i) false)).length := by
                  simp
                obtain ⟨d', rfl⟩ : ∃ d', dfuel = d' + 1 :=
                  ⟨dfuel - 1, by omega⟩
                rw [decompLoop_lit d' (maxLength s i) hK1 hK9 _ _
                  (by rw [List.length_append, hchunklen]; omega)]
                have htk := List.take_left ((s.drop i).take (maxLength s i))
                  (compressLoop s fuel (i + maxLength s i) false)
                have hdr := List.drop_left ((s.drop i).take (maxLength s i))
                  (compressLoop s fuel (i + maxLength s i) false)
                rw [hchunklen] at htk hdr
                rw [htk, hdr, ← List.take_add]
                refine ih d' (i + maxLength s i) false (by omega) ?_ ?_
                · have hb : (if canReference s (i + maxLength s i) 1 = false
                      then 1 else 0) ≤ 1 := by split <;> omega
                  omega
                · rw [List.length_cons, List.length_append, hchunklen] at hd
                  omega
            | true =>
                rw [hc] at hml hm
                simp at hml hm
                rw [if_neg (by omega)] at hd ⊢
                rw [List.length_cons] at hd
                obtain ⟨d', rfl⟩ : ∃ d', dfuel = d' + 1 :=
                  ⟨dfuel - 1, by omega⟩
                rw [decompLoop_zero]
                show decompLoop d' (compressLoop s fuel i false) false
                  (s.take i) = s
                refine ih d' i false hin ?_ ?_
                · rw [hc]
                  simp
                  omega
                · omega
        | false =>
            rw [if_neg (by simp)] at hd ⊢
            cases hc : canReference s i 1 with
            | true =>
                rw [hc] at hm
                simp only [Bool.true_eq_false, if_false] at hm
                have hpos : 0 < (bestMatch s i).1 :=
                  (bestMatch_pos_iff s i hi).mpr hc
                obtain ⟨hbo1, hbo2, hbl9, hibl, hmatchp⟩ :=
                  bestMatch_props s i hi hpos
                rw [if_pos hpos] at hd ⊢
                simp only [List.length_cons] at hd
                obtain ⟨d', rfl⟩ : ∃ d', dfuel = d' + 1 :=
                  ⟨dfuel - 1, by omega⟩
                rw [decompLoop_ref d' (bestMatch s i).1 (by omega) hbl9 _ _ _,
                  digitVal_digit (bestMatch s i).2 (by omega),
                  copyRef_spec s (bestMatch s i).2 (bestMatch s i).1 i
                    (by omega) (by omega) hibl hmatchp]
                refine ih d' (i + (bestMatch s i).1) true (by omega) ?_ ?_
                · have hb : (if canReference s (i + (bestMatch s i).1) 1 = true
                      then 1 else 0) ≤ 1 := by split <;> omega
                  omega
                · omega
            | false =>
                rw [hc] at hm
                simp at hm
                have hpos : ¬ 0 < (bestMatch s i).1 := fun hp =>
                  absurd ((bestMatch_pos_iff s i hi).mp hp) (by rw [hc]; simp)
                rw [if_neg hpos] at hd ⊢
                rw [List.length_cons] at hd
                obtain ⟨d', rfl⟩ : ∃ d', dfuel = d' + 1 :=
                  ⟨dfuel - 1, by omega⟩
                rw [decompLoop_zero]
                show decompLoop d' (compressLoop s fuel i true) true
                  (s.take i) = s
                refine ih d' i true hin ?_ ?_
                · rw [hc]
                  simp
                  omega
                · omega
      · have hieq : i = s.length := by omega
        rw [compressLoop, if_neg hi, decompLoop_nil, hieq, List.take_length]

/-- C1: for every string over the codec's alphabet, compressing and then
decompressing returns the original string:
solveLZDecompression (solveLZCompression s) = s. -/
theorem c1_lz_roundtrip (s : JSStr) :
    solveLZDecompression (solveLZCompression s) = s := by
  cases s with
  | nil => rfl
  | cons c rest =>
      rw [solveLZCompression, if_neg (by simp)]
      have hi : 0 < (c :: rest).length := by simp
      have hc0 : canReference (c :: rest) 0 1 = false := rfl
      have hml := maxLength_spec (c :: rest) 0 hi
      rw [hc0] at hml
      simp only [Bool.false_eq_true, if_false] at hml
      have hne : compressLoop (c :: rest) (2 * (c :: rest).length + 2) 0
          true ≠ [] := by
        rw [compressLoop, if_pos hi, if_pos rfl, if_pos (by rw [hml]; omega)]
        simp
      rw [solveLZDecompression, if_neg (by simpa using hne)]
      have hrt := lz_roundtrip_loop (c :: rest) (2 * (c :: rest).length + 2)
        (compressLoop (c :: rest) (2 * (c :: rest).length + 2) 0 true).length
        0 true (by omega)
        (by rw [hc0]; simp only [Bool.false_eq_true, if_false]; omega)
        le_rfl
      simpa using hrt
